import Mathlib

/-!
# YALOKGAR archiver: container codec, offset allocation, unpack gate, exit status

A shallow embedding of `src/src/archiver.cpp` and `src/src/main.cpp`.

* Buffers (`std::vector<char>`, `std::string`) are lists of octets.
* `uint64_t` / `size_t` values are natural numbers, reduced modulo `2 ^ 64` where the
  source can wrap; eight-byte fields are laid out least-significant byte first.
* The external collaborators (zstd, OpenSSL, the allocator, the file system, the number of
  hardware threads) are the fields of `Platform`.
* The pack workers are a step function on `PackState`; a schedule is the list of thread
  ids in the order in which the threads perform their loop iterations, each iteration
  being linearised at its critical section (`offset_mutex`).
* The unpack workers share one stream without a lock; they are run thread after thread.
* No exception is caught anywhere. An allocation that fails while unpacking, a
  `fs::create_directories` that fails, or a directory walk over a missing folder throws,
  which ends the process: the result is `none`, also for `main`.
* After a decryption `unpack_archive` replaces its stream by a default-constructed
  `std::ifstream`, which has no file open: every later read fails.
* Console output (`print_progress`) is left out.
-/

namespace Archiver

/-- One `char` of a buffer. -/
abbrev Byte := Fin 256

/-- A `std::vector<char>` or `std::string`. -/
abbrev Bytes := List Byte

/-- The external collaborators of the archiver. -/
structure Platform where
  /-- The call `ZSTD_compress` at level 3 into a buffer of `ZSTD_compressBound` bytes,
  already cut to the returned length; `none` when `ZSTD_isError`. -/
  ZSTD_compress : Bytes → Option Bytes
  /-- The call `ZSTD_decompress src dstCapacity`: the bytes produced, `none` when
  `ZSTD_isError`. -/
  ZSTD_decompress : Bytes → Nat → Option Bytes
  /-- The call `RAND_bytes` for 16 bytes; `none` when it reports failure. -/
  RAND_bytes : Option Bytes
  /-- The call `PKCS5_PBKDF2_HMAC_SHA1 password salt` with 10000 rounds and a 32-byte key. -/
  PBKDF2 : Bytes → Bytes → Option Bytes
  /-- AES-256-CBC encryption `key iv input` (context creation, init, update, final). -/
  AES_256_CBC_encrypt : Bytes → Bytes → Bytes → Option Bytes
  /-- AES-256-CBC decryption `key iv input` (context creation, init, update, final). -/
  AES_256_CBC_decrypt : Bytes → Bytes → Bytes → Option Bytes
  /-- The call `std::thread::hardware_concurrency()`. -/
  hardware_concurrency : Nat
  /-- Whether `std::vector<Entry>(count)` can be allocated (otherwise it throws). -/
  vector_ok : Nat → Bool
  /-- Whether a character buffer of the given length can be allocated (otherwise throws). -/
  buffer_ok : Nat → Bool
  /-- Whether `fs::create_directories(out_path.parent_path())` returns for the entry with
  the given relative path, after the given files have been written (otherwise it throws). -/
  create_directories : List (Bytes × Bytes) → Bytes → Bool
  /-- Whether `std::ofstream` can open the output file with the given relative path, after
  the given files have been written. -/
  can_create : List (Bytes × Bytes) → Bytes → Bool

/-! ## Fixed-width integers and streams -/

/-- The octet `x mod 256`. -/
def byte_of (x : Nat) : Byte := ⟨x % 256, Nat.mod_lt x (by decide)⟩

/-- The eight bytes of a `uint64_t` in memory, least significant first. -/
def le64 (v : Nat) : Bytes := (List.range 8).map (fun k => byte_of (v / 256 ^ k))

/-- The `uint64_t` whose memory holds the given bytes. -/
def from_le64 (bs : Bytes) : Nat := bs.foldr (fun b acc => b.val + 256 * acc) 0

/-- Source `write_uint64`: appends the eight bytes of `value` to the output stream. -/
def write_uint64 (out : Bytes) (value : Nat) : Bytes := out ++ le64 (value % 2 ^ 64)

/-- Source `write_string`: the length as `uint64_t`, then that many bytes of the string. -/
def write_string (out : Bytes) (str : Bytes) : Bytes :=
  write_uint64 out (str.length % 2 ^ 64) ++ str.take (str.length % 2 ^ 64)

/-- An input stream over a byte sequence: the read position and whether the stream has
left the `good` state (a read past the end sets `eofbit | failbit`, and nothing in
`unpack_archive` clears it afterwards). -/
structure IStream where
  data : Bytes
  pos : Nat
  failed : Bool
deriving DecidableEq

/-- Source `in.read(buf, n)`: on a failed stream nothing is extracted and the buffer keeps its
content; otherwise up to `n` bytes are stored at the start of the buffer, and the stream
fails when fewer than `n` were available. Returns the stream and the buffer. -/
def IStream.read (s : IStream) (n : Nat) (buf : Bytes) : IStream × Bytes :=
  if s.failed then (s, buf)
  else if n ≤ (s.data.drop s.pos).length then
    ({ s with pos := s.pos + n }, (s.data.drop s.pos).take n ++ buf.drop n)
  else
    ({ s with pos := s.pos + (s.data.drop s.pos).length, failed := true },
      s.data.drop s.pos ++ buf.drop (s.data.drop s.pos).length)

/-- The bytes of the stream from the read position on: what
`std::istreambuf_iterator<char>(in)` drains. -/
def IStream.rest (s : IStream) : Bytes := s.data.drop s.pos

/-- Source `in.tellg()`: `-1` on a failed stream. -/
def IStream.tellg (s : IStream) : Int := if s.failed then -1 else (s.pos : Int)

/-- Source `in.seekg(p)`: does nothing on a failed stream, fails on a negative position. -/
def IStream.seekg (s : IStream) (p : Int) : IStream :=
  if s.failed then s
  else if p < 0 then { s with failed := true }
  else { s with pos := p.toNat }

/-- Source `in.read(reinterpret_cast<char*>(&v), sizeof(v))` for a `uint64_t v` holding `old`. -/
def read_uint64 (s : IStream) (old : Nat) : IStream × Nat :=
  ((s.read 8 (le64 old)).1, from_le64 (s.read 8 (le64 old)).2)

/-- The stream `in` after `in = std::ifstream()`, `pubsetbuf`, `clear()` and `seekg(0)`
(lines 170-173): no file is open, the seek fails, and no byte can be read. -/
def closed_stream : IStream := ⟨[], 0, true⟩

/-- Source `std::streamoff(v)` for a `uint64_t v`: the two's-complement reading. -/
def to_streamoff (v : Nat) : Int := if v < 2 ^ 63 then (v : Int) else (v : Int) - 2 ^ 64

/-- The literal `"YAL1"`. -/
def YAL1 : Bytes := [89, 65, 76, 49]

/-- The literal `"YALC"`. -/
def YALC : Bytes := [89, 65, 76, 67]

/-! ## Static partition of the indices (both `pack_folder` and `unpack_archive`) -/

/-- Source `thread_count`: the hardware concurrency, or 4 when it is reported as 0. -/
def thread_count (P : Platform) : Nat :=
  if P.hardware_concurrency = 0 then 4 else P.hardware_concurrency

/-- Source `size_t batch = (n + thread_count - 1) / thread_count`. -/
def batch (n tc : Nat) : Nat := ((n + tc - 1) % 2 ^ 64) / tc

/-- First index of thread `t`: `t * batch`. -/
def range_begin (n tc t : Nat) : Nat := (t * batch n tc) % 2 ^ 64

/-- Loop bound of thread `t`: `std::min((t + 1) * batch, n)`. -/
def range_end (n tc t : Nat) : Nat := min (((t + 1) * batch n tc) % 2 ^ 64) n

/-- The indices visited by `for (size_t i = t * batch; i < std::min((t + 1) * batch, n); ++i)`
in the order of the visits. -/
def thread_indices (n tc t : Nat) : List Nat :=
  List.range' (range_begin n tc t) (range_end n tc t - range_begin n tc t)

/-! ## `pack_folder` -/

/-- A directory record as `pack_folder` builds it. -/
structure FileEntry where
  relative_path : Bytes
  original_size : Nat
  compressed_size : Nat
  offset : Nat
deriving DecidableEq

/-- A value-initialised `FileEntry`, the content of a slot no worker has filled. -/
def FileEntry.empty : FileEntry := ⟨[], 0, 0, 0⟩

/-- A regular file found by the directory walk: its path relative to the source folder and
its content, `none` when `std::ifstream` cannot open it. -/
abbrev SourceFile := Bytes × Option Bytes

/-- What the worker threads of `pack_folder` share: the pre-sized `files` and
`compressed_data`, the counter `offset`, and the loop variable `i` of every thread. -/
structure PackState where
  files : List FileEntry
  compressed_data : List Bytes
  offset : Nat
  next : List Nat
deriving DecidableEq

/-- The lambda `worker` of `pack_folder` for index `i`: read, compress, take the current
value of the shared counter and advance it by the compressed size, fill slot `i`. A file
that cannot be opened or compressed leaves everything untouched. -/
def pack_worker (P : Platform) (file_paths : List SourceFile) (st : PackState) (i : Nat) :
    PackState :=
  match file_paths[i]? with
  | none => st
  | some (_, none) => st
  | some (rel, some data) =>
    match P.ZSTD_compress data with
    | none => st
    | some cdata =>
      { st with
        files := st.files.set i ⟨rel, data.length, cdata.length, st.offset⟩
        compressed_data := st.compressed_data.set i cdata
        offset := (st.offset + cdata.length) % 2 ^ 64 }

/-- State of `pack_folder` when the threads are started. -/
def pack_init (n tc : Nat) : PackState :=
  { files := List.replicate n FileEntry.empty
    compressed_data := List.replicate n []
    offset := 0
    next := (List.range tc).map (range_begin n tc) }

/-- One loop iteration of thread `t`: if its loop variable is below its bound, call
`worker` and increment; a thread whose loop has ended does nothing more. -/
def thread_step (P : Platform) (file_paths : List SourceFile) (tc : Nat) (st : PackState)
    (t : Nat) : PackState :=
  match st.next[t]? with
  | none => st
  | some i =>
    if i < range_end file_paths.length tc t then
      { pack_worker P file_paths st i with next := st.next.set t (i + 1) }
    else st

/-- The threads of `pack_folder` run under a schedule. -/
def run_threads (P : Platform) (file_paths : List SourceFile) (tc : Nat)
    (schedule : List Nat) : PackState :=
  schedule.foldl (thread_step P file_paths tc) (pack_init file_paths.length tc)

/-- Every thread has left its loop, so that all the `join` calls return. -/
def joined (n tc : Nat) (st : PackState) : Bool :=
  (List.range tc).all (fun t => decide (range_end n tc t ≤ st.next.getD t 0))

/-- The record of one entry in the directory (lines 129-132). -/
def write_entry (oss : Bytes) (f : FileEntry) : Bytes :=
  write_uint64 (write_uint64 (write_uint64 (write_string oss f.relative_path)
    f.original_size) f.compressed_size) f.offset

/-- The magic, the count and the directory records (lines 126-133). -/
def write_directory (files : List FileEntry) : Bytes :=
  files.foldl write_entry (write_uint64 YAL1 files.length)

/-- The plain container `archive_data` (lines 125-138): the directory, then every block of
`compressed_data` in index order. -/
def serialize (files : List FileEntry) (compressed_data : List Bytes) : Bytes :=
  compressed_data.foldl (fun oss c => oss ++ c) (write_directory files)

/-- Source `aes_encrypt`: the ciphertext and the IV, `none` when it returns `false`. -/
def aes_encrypt (P : Platform) (inp password : Bytes) : Option (Bytes × Bytes) :=
  match P.RAND_bytes with
  | none => none
  | some iv =>
    match P.PBKDF2 password iv with
    | none => none
    | some key =>
      match P.AES_256_CBC_encrypt key iv inp with
      | none => none
      | some out => some (out, iv)

/-- Source `aes_decrypt`: the plaintext, `none` when it returns `false`. -/
def aes_decrypt (P : Platform) (inp password iv : Bytes) : Option Bytes :=
  match P.PBKDF2 password iv with
  | none => none
  | some key => P.AES_256_CBC_decrypt key iv inp

/-- Source `pack_folder` on the files `file_paths` under a schedule of its worker threads.
Outer `none`: the schedule ends before every thread has finished. Otherwise the returned
`bool` and the bytes written to the archive file (`none` when it was not written);
`archive_ok` says whether the archive file can be opened for writing. -/
def pack_folder (P : Platform) (file_paths : List SourceFile) (schedule : List Nat)
    (archive_ok : Bool) (password : Bytes) : Option (Bool × Option Bytes) :=
  let n := file_paths.length
  let st := run_threads P file_paths (thread_count P) schedule
  if joined n (thread_count P) st = false then none
  else
    let archive_data := serialize st.files st.compressed_data
    if password ≠ [] then
      match aes_encrypt P archive_data password with
      | none => some (false, none)
      | some (encrypted, iv) =>
        if archive_ok = false then some (false, none)
        else some (true, some (YALC ++ iv.take 16 ++ encrypted))
    else
      if archive_ok = false then some (false, none)
      else some (true, some archive_data)

/-! ## `unpack_archive` -/

/-- A directory record as `unpack_archive` reads it (its local `struct Entry`). -/
structure Entry where
  path : Bytes
  osize : Nat
  csize : Nat
  offset : Nat
deriving DecidableEq

/-- The record `pack_folder` holds for an entry, in the shape `unpack_archive` reads. -/
def FileEntry.toEntry (f : FileEntry) : Entry :=
  ⟨f.relative_path, f.original_size, f.compressed_size, f.offset⟩

/-- The directory record of the container format: the 8-byte path length, the path, and
the 8-byte original size, compressed size and offset. -/
def entry_record (f : FileEntry) : Bytes :=
  le64 f.relative_path.length ++ f.relative_path ++ le64 f.original_size ++
    le64 f.compressed_size ++ le64 f.offset

/-- The fields of an entry fit their `uint64_t` types. -/
def FileEntry.fits (f : FileEntry) : Prop :=
  f.relative_path.length < 2 ^ 64 ∧ f.original_size < 2 ^ 64 ∧ f.compressed_size < 2 ^ 64 ∧
    f.offset < 2 ^ 64

instance (f : FileEntry) : Decidable f.fits := by
  unfold FileEntry.fits; infer_instance

/-- The body of `for (auto& f : files)` (lines 183-189); `none` when `resize` throws. -/
def read_entry (P : Platform) (s : IStream) : Option (IStream × Entry) :=
  if P.buffer_ok (read_uint64 s 0).2 = false then none
  else
    let len := (read_uint64 s 0).2
    let r1 := (read_uint64 s 0).1.read len (List.replicate len 0)
    let r2 := read_uint64 r1.1 0
    let r3 := read_uint64 r2.1 0
    let r4 := read_uint64 r3.1 0
    some (r4.1, ⟨r1.2, r2.2, r3.2, r4.2⟩)

/-- The loop over the `count` value-initialised entries. -/
def read_entries (P : Platform) : Nat → IStream → Option (IStream × List Entry)
  | 0, s => some (s, [])
  | k + 1, s =>
    match read_entry P s with
    | none => none
    | some (s1, e) =>
      match read_entries P k s1 with
      | none => none
      | some (s2, es) => some (s2, e :: es)

/-- The directory reader (lines 178-191): the stream after the directory, the count, the
entries and `data_start`; `none` when an allocation throws. -/
def read_directory (P : Platform) (s : IStream) : Option (IStream × Nat × List Entry × Int) :=
  if P.vector_ok (read_uint64 s 0).2 = false then none
  else
    match read_entries P (read_uint64 s 0).2 (read_uint64 s 0).1 with
    | none => none
    | some (s1, files) => some (s1, (read_uint64 s 0).2, files, s1.tellg)

/-- The lambda `worker` of `unpack_archive` for index `i`, on the shared stream and the
list of files written so far; `none` when an allocation or `fs::create_directories`
throws. -/
def unpack_worker (P : Platform) (files : List Entry) (data_start : Int)
    (st : IStream × List (Bytes × Bytes)) (i : Nat) : Option (IStream × List (Bytes × Bytes)) :=
  match files[i]? with
  | none => some st
  | some f =>
    let s1 := st.1.seekg (data_start + to_streamoff f.offset)
    if P.buffer_ok f.csize = false then none
    else
      let r := s1.read f.csize (List.replicate f.csize 0)
      if P.buffer_ok f.osize = false then none
      else
        match P.ZSTD_decompress r.2 f.osize with
        | none => some (r.1, st.2)
        | some data =>
          if data.length ≠ f.osize then some (r.1, st.2)
          else if P.create_directories st.2 f.path = false then none
          else if P.can_create st.2 f.path = false then some (r.1, st.2)
          else some (r.1, st.2 ++ [(f.path, data)])

/-- The worker calls of `unpack_archive`, thread after thread: the threads share the
stream `in` without a lock, and the model takes the schedule in which no two of them
overlap. -/
def run_unpack (P : Platform) (files : List Entry) (data_start : Int) (s : IStream) :
    Option (IStream × List (Bytes × Bytes)) :=
  ((List.range (thread_count P)).flatMap (thread_indices files.length (thread_count P))).foldlM
    (unpack_worker P files data_start) (s, [])

/-- Lines 178-219 of `unpack_archive`: read the directory, restore the files, return
`true`. -/
def unpack_entries (P : Platform) (s : IStream) : Option (Bool × List (Bytes × Bytes)) :=
  match read_directory P s with
  | none => none
  | some (s1, _, files, data_start) =>
    match run_unpack P files data_start s1 with
    | none => none
    | some (_, written) => some (true, written)

/-- Source `unpack_archive` on the content of the archive file (`none` when it cannot be
opened), with `magic0` the prior content of the local array `magic`, of which
`std::string(magic, 4)` takes the first four bytes. The result is the returned `bool` and
the files written, as (relative path, content) in the order of the writes; outer `none`
when an exception is thrown. After a decryption the decrypted buffer is handed to
`pubsetbuf` of a stream that has no file open, so that nothing of it is read. -/
def unpack_archive (P : Platform) (archive : Option Bytes) (password : Bytes)
    (magic0 : Bytes) : Option (Bool × List (Bytes × Bytes)) :=
  match archive with
  | none => some (false, [])
  | some content =>
    let r0 := (IStream.mk content 0 false).read 4 magic0
    if r0.2.take 4 = YALC then
      let r1 := r0.1.read 16 (List.replicate 16 0)
      let encrypted := r1.1.rest
      if password = [] then some (false, [])
      else
        match aes_decrypt P encrypted password r1.2 with
        | none => some (false, [])
        | some _ =>
          let r2 := closed_stream.read 4 r0.2
          unpack_entries P r2.1
    else if r0.2.take 4 ≠ YAL1 then some (false, [])
    else unpack_entries P r0.1

/-! ## `main` -/

/-- The bytes of a string literal of the source. -/
def ascii (s : String) : Bytes := s.data.map (fun c => byte_of c.toNat)

/-- The loop `for (int i = 4; i < argc; ++i)` of `main` over the arguments from index 4:
the argument after the first `--password` that has one. -/
def find_password : List Bytes → Bytes
  | [] => []
  | a :: rest =>
    if a = ascii "--password" ∧ rest ≠ [] then rest.headD [] else find_password rest

/-- Source `main` on the argument vector (`argc` is its length). The calls of `pack_folder`
and `unpack_archive` are functions of their three arguments that give the returned `bool`,
or `none` when the call does not return because it ends by an exception; `main` catches
none, so that it then does not return either (`none`) and the process is aborted. -/
def main (pack unpack : Bytes → Bytes → Bytes → Option Bool) (argv : List Bytes) :
    Option Int :=
  if argv.length < 4 then some 1
  else
    let command := argv.getD 1 []
    let password := find_password (argv.drop 4)
    if command = ascii "pack" then
      (pack (argv.getD 2 []) (argv.getD 3 []) password).map (fun ok => if ok then 0 else 2)
    else if command = ascii "unpack" then
      (unpack (argv.getD 2 []) (argv.getD 3 []) password).map (fun ok => if ok then 0 else 3)
    else some 1

/-- The call `pack_folder(folder, archive, password)` as `main` makes it: `walk` gives the
regular files under a folder, `none` when `fs::recursive_directory_iterator` throws (line
77), and `writable` says which archive paths can be opened for writing. The call does not
return either (`none`) while the schedule has not let every thread finish. -/
def pack_call (P : Platform) (walk : Bytes → Option (List SourceFile)) (schedule : List Nat)
    (writable : Bytes → Bool) (folder archive password : Bytes) : Option Bool :=
  match walk folder with
  | none => none
  | some file_paths =>
    (pack_folder P file_paths schedule (writable archive) password).map Prod.fst

/-- The call `unpack_archive(archive, folder, password)` as `main` makes it: `disk` gives
the content of a file, `none` when it cannot be opened. -/
def unpack_call (P : Platform) (disk : Bytes → Option Bytes) (magic0 : Bytes)
    (archive _folder password : Bytes) : Option Bool :=
  (unpack_archive P (disk archive) password magic0).map Prod.fst

/-- The schedule in which thread 0 runs its whole loop, then thread 1, and so on. -/
def sequential_schedule (n tc : Nat) : List Nat :=
  (List.range tc).flatMap (fun t => List.replicate (range_end n tc t - range_begin n tc t) t)

/-! ## Invariants of the pack workers -/

/-- Number of bytes held in `compressed_data`. -/
def PackState.total (st : PackState) : Nat := (st.compressed_data.map List.length).sum

/-- What holds of the shared state between any two loop iterations: the containers keep
their size, every loop variable is at or past the start of its range, the slots a thread
has still to visit are untouched, and every entry records the length of its block. -/
structure PackInv (n tc : Nat) (st : PackState) : Prop where
  files_len : st.files.length = n
  data_len : st.compressed_data.length = n
  next_len : st.next.length = tc
  next_ge : ∀ t i, st.next[t]? = some i → range_begin n tc t ≤ i
  pending : ∀ t i j, st.next[t]? = some i → i ≤ j → j < range_end n tc t →
    st.files[j]? = some FileEntry.empty ∧ st.compressed_data[j]? = some []
  sizes : st.files.map FileEntry.compressed_size = st.compressed_data.map List.length

/-- The intervals of the entries, in the order of the list, run from `a` to `b`: the first
starts at `a`, each next one starts where the one before ends, and the last ends at `b`. -/
def tiles : Nat → List FileEntry → Nat → Prop
  | a, [], b => a = b
  | a, f :: l, b => f.offset = a ∧ tiles (a + f.compressed_size) l b

/-- The intervals `[offset, offset + compressed_size)` of the entries tile `[0, offset)` of
the shared counter: the sizes add up to the counter, no interval passes it, every
position below it lies in the interval of exactly one slot, and the entries can be put in
an order in which their intervals run from 0 to the counter without a gap. -/
structure Covered (st : PackState) : Prop where
  sum : (st.files.map FileEntry.compressed_size).sum = st.offset
  bound : ∀ f ∈ st.files, f.offset + f.compressed_size ≤ st.offset
  cover : ∀ p, p < st.offset →
    ∃! i : Nat, ∃ f : FileEntry,
      st.files[i]? = some f ∧ f.offset ≤ p ∧ p < f.offset + f.compressed_size
  chain : ∃ L : List FileEntry, L.Perm st.files ∧ tiles 0 L st.offset

/-- What the worker of index `i` stores when the file opens and compresses: the relative
path, the original size and the block. -/
def expected_slot (P : Platform) (fp : List SourceFile) (i : Nat) :
    Option (Bytes × Nat × Bytes) :=
  match fp[i]? with
  | some (rel, some data) =>
    match P.ZSTD_compress data with
    | some cdata => some (rel, data.length, cdata)
    | none => none
  | _ => none

/-- The slot of index `i` holds what its worker leaves there, the offset apart. -/
def slot_final (P : Platform) (fp : List SourceFile) (i : Nat) (f : FileEntry) (b : Bytes) :
    Prop :=
  match expected_slot P fp i with
  | none => f = FileEntry.empty ∧ b = []
  | some (rel, size, cdata) =>
    f.relative_path = rel ∧ f.original_size = size ∧ f.compressed_size = cdata.length ∧
      b = cdata

/-- Every slot a thread has already visited holds its final content. -/
def Visited (P : Platform) (fp : List SourceFile) (tc : Nat) (st : PackState) : Prop :=
  ∀ t i j, st.next[t]? = some i → range_begin fp.length tc t ≤ j → j < i →
    j < range_end fp.length tc t →
    ∃ f b, st.files[j]? = some f ∧ st.compressed_data[j]? = some b ∧ slot_final P fp j f b

/-! ## A small platform for concrete runs -/

/-- A lossless codec that stores the data behind a one-byte frame header. -/
def stored_compress (d : Bytes) : Option Bytes := some (40 :: d)

/-- The inverse of `stored_compress`: an error on a wrong header or too small a capacity,
nothing for an empty input. -/
def stored_decompress (c : Bytes) (capacity : Nat) : Option Bytes :=
  match c with
  | [] => some []
  | b :: d => if b = 40 ∧ d.length ≤ capacity then some d else none

/-- A platform with `hw` hardware threads, the stored codec, a cipher that leaves the
bytes as they are, allocations that succeed below `2 ^ 32` elements, and a destination
folder that starts empty: a directory cannot be created where a file has been written, and
a file cannot be created under an empty name, under a name that ends in `/`, or where a
directory has been made. -/
def demo (hw : Nat) : Platform :=
  { ZSTD_compress := stored_compress
    ZSTD_decompress := stored_decompress
    RAND_bytes := some (List.replicate 16 7)
    PBKDF2 := fun _ _ => some (List.replicate 32 1)
    AES_256_CBC_encrypt := fun _ _ x => some x
    AES_256_CBC_decrypt := fun _ _ x => some x
    hardware_concurrency := hw
    vector_ok := fun k => decide (k < 2 ^ 32)
    buffer_ok := fun k => decide (k < 2 ^ 32)
    create_directories := fun written p =>
      written.all (fun w => !(w.1 ++ [47]).isPrefixOf p)
    can_create := fun written p =>
      decide (p ≠ [] ∧ p.getLast? ≠ some 47) &&
        written.all (fun w => !(p ++ [47]).isPrefixOf w.1) }

/-- A container whose first entry `a` is a file and whose second entry `a/b` needs `a` as a
directory. -/
def conflicting_paths : Bytes :=
  serialize [⟨[97], 1, 2, 0⟩, ⟨[97, 47, 98], 1, 2, 2⟩] [[40, 120], [40, 121]]

/-- A disk that holds one file, `a.yal`. -/
def one_file (content : Bytes) (path : Bytes) : Option Bytes :=
  if path = ascii "a.yal" then some content else none

/-- A directory walk that finds the given files under `dir` and throws on any other
folder. -/
def walk_dir (files : List SourceFile) (folder : Bytes) : Option (List SourceFile) :=
  if folder = ascii "dir" then some files else none

/-- A plaintext that starts with `XXXX`, followed by a count of 1 and one record: path `a`,
sizes 0, offset 0. -/
def garbage_plain : Bytes :=
  [88, 88, 88, 88] ++ le64 1 ++ le64 1 ++ [97] ++ le64 0 ++ le64 0 ++ le64 0

/-- Two source files: `a` with content `x` and `b` with content `y`. -/
def two_files : List SourceFile := [([97], some [120]), ([98], some [121])]

/-! ## Theorems -/

/-! ### The static partition -/

theorem batch_eq (n tc : Nat) (hov : n + tc - 1 < 2 ^ 64) : batch n tc = (n + tc - 1) / tc := by
  unfold batch
  rw [Nat.mod_eq_of_lt hov]

theorem batch_mul_le (n tc : Nat) (hov : n + tc - 1 < 2 ^ 64) :
    tc * batch n tc ≤ n + tc - 1 := by
  rw [batch_eq n tc hov]
  exact Nat.mul_div_le _ _

theorem le_mul_batch (n tc : Nat) (htc : 1 ≤ tc) (hov : n + tc - 1 < 2 ^ 64) :
    n ≤ tc * batch n tc := by
  rw [batch_eq n tc hov]
  have h := Nat.lt_mul_div_succ (n + tc - 1) (show 0 < tc by omega)
  rw [Nat.mul_add] at h
  omega

theorem mul_batch_lt (n tc t : Nat) (hov : n + tc - 1 < 2 ^ 64) (ht : t ≤ tc) :
    t * batch n tc < 2 ^ 64 := by
  have h1 := batch_mul_le n tc hov
  have h2 : t * batch n tc ≤ tc * batch n tc := Nat.mul_le_mul_right _ ht
  omega

theorem range_begin_eq (n tc t : Nat) (hov : n + tc - 1 < 2 ^ 64) (ht : t ≤ tc) :
    range_begin n tc t = t * batch n tc := by
  unfold range_begin
  exact Nat.mod_eq_of_lt (mul_batch_lt n tc t hov ht)

theorem range_end_eq (n tc t : Nat) (hov : n + tc - 1 < 2 ^ 64) (ht : t < tc) :
    range_end n tc t = min ((t + 1) * batch n tc) n := by
  unfold range_end
  rw [Nat.mod_eq_of_lt (mul_batch_lt n tc (t + 1) hov ht)]

theorem mem_thread_indices (n tc t i : Nat) (hov : n + tc - 1 < 2 ^ 64) (ht : t < tc) :
    i ∈ thread_indices n tc t ↔ t * batch n tc ≤ i ∧ i < (t + 1) * batch n tc ∧ i < n := by
  unfold thread_indices
  rw [range_begin_eq n tc t hov (Nat.le_of_lt ht), range_end_eq n tc t hov ht, List.mem_range'_1]
  omega

theorem thread_indices_upto (n tc : Nat) (hov : n + tc - 1 < 2 ^ 64) :
    ∀ k, k ≤ tc →
      (List.range k).flatMap (thread_indices n tc) = List.range (min (k * batch n tc) n) := by
  intro k
  induction k with
  | zero => intro _; simp
  | succ k ih =>
    intro hk
    rw [List.range_succ, List.flatMap_append, ih (by omega)]
    simp only [List.flatMap_cons, List.flatMap_nil, List.append_nil]
    unfold thread_indices
    rw [range_begin_eq n tc k hov (by omega), range_end_eq n tc k hov (by omega)]
    have hmono : k * batch n tc ≤ (k + 1) * batch n tc := Nat.mul_le_mul_right _ (by omega)
    rcases Nat.lt_or_ge n (k * batch n tc) with h | h
    · have e1 : min (k * batch n tc) n = n := by omega
      have e2 : min ((k + 1) * batch n tc) n = n := by omega
      have e3 : n - k * batch n tc = 0 := by omega
      rw [e1, e2, e3]
      simp
    · have e1 : min (k * batch n tc) n = k * batch n tc := by omega
      rw [e1, List.range_eq_range', List.range_eq_range']
      have h3 := List.range'_append 0 (k * batch n tc)
        (min ((k + 1) * batch n tc) n - k * batch n tc) 1
      simp only [Nat.zero_add, Nat.one_mul] at h3
      rw [h3]
      congr 1
      omega

/-- C10: with `batch = ceil(n / thread_count)` and no overflow of `n + thread_count - 1`,
the index ranges of the threads `0 .. thread_count - 1`, taken in thread order, list
`0 .. n - 1` exactly (contiguous, nothing skipped, nothing twice), each range ends no later
than the next begins, and every index below `n` is visited by exactly one thread. The
definitions are the shared partition code of `pack_folder` and `unpack_archive`. -/
theorem static_partition_exact (n tc : Nat) (htc : 1 ≤ tc) (hov : n + tc - 1 < 2 ^ 64) :
    (n ≤ tc * batch n tc ∧ tc * batch n tc < n + tc) ∧
    (List.range tc).flatMap (thread_indices n tc) = List.range n ∧
    (∀ t, t + 1 < tc → range_end n tc t ≤ range_begin n tc (t + 1)) ∧
    (∀ i, i < n → ∃! t, t < tc ∧ i ∈ thread_indices n tc t) := by
  have hle := le_mul_batch n tc htc hov
  have hub := batch_mul_le n tc hov
  refine ⟨⟨hle, by omega⟩, ?_, ?_, ?_⟩
  · rw [thread_indices_upto n tc hov tc (Nat.le_refl _)]
    congr 1
    omega
  · intro t ht
    rw [range_end_eq n tc t hov (by omega), range_begin_eq n tc (t + 1) hov (by omega)]
    omega
  · intro i hi
    have hb : 0 < batch n tc := by
      rcases Nat.eq_zero_or_pos (batch n tc) with h | h
      · rw [h] at hle; omega
      · exact h
    have hlt : i / batch n tc < tc := by
      apply (Nat.div_lt_iff_lt_mul hb).2
      have hc : batch n tc * tc = tc * batch n tc := Nat.mul_comm _ _
      omega
    refine ⟨i / batch n tc, ⟨hlt, ?_⟩, ?_⟩
    · rw [mem_thread_indices n tc _ i hov hlt]
      refine ⟨Nat.div_mul_le_self i _, ?_, hi⟩
      have := Nat.lt_mul_div_succ i hb
      rw [Nat.mul_comm]; exact this
    · rintro t ⟨ht, hmem⟩
      rw [mem_thread_indices n tc t i hov ht] at hmem
      symm
      apply Nat.div_eq_of_lt_le
      · exact hmem.1
      · exact hmem.2.1

/-- C10 at ten files and four threads: batch 3, ranges `[0,3)`, `[3,6)`, `[6,9)`, `[9,10)`. -/
theorem static_partition_exact_witness :
    (10 ≤ 4 * batch 10 4 ∧ 4 * batch 10 4 < 10 + 4) ∧
    (List.range 4).flatMap (thread_indices 10 4) = List.range 10 ∧
    (∀ t, t + 1 < 4 → range_end 10 4 t ≤ range_begin 10 4 (t + 1)) ∧
    (∀ i, i < 10 → ∃! t, t < 4 ∧ i ∈ thread_indices 10 4 t) :=
  static_partition_exact 10 4 (by decide) (by decide)

/-! ### Exit status of `main` -/

/-- C9, amended: `main` returns 1 when fewer than three arguments follow the program name
or the command is neither `pack` nor `unpack`; for `pack` it returns 0 when `pack_folder`
returns true and 2 when it returns false; for `unpack` it returns 0 when `unpack_archive`
returns true and 3 when it returns false; when the call ends by an exception `main` does
not return; and whenever `main` returns, the status is 0, 1, 2 or 3. -/
theorem main_exit_status (pack unpack : Bytes → Bytes → Bytes → Option Bool)
    (argv : List Bytes) :
    (argv.length < 4 → main pack unpack argv = some 1) ∧
    (4 ≤ argv.length → argv.getD 1 [] ≠ ascii "pack" → argv.getD 1 [] ≠ ascii "unpack" →
      main pack unpack argv = some 1) ∧
    (4 ≤ argv.length → argv.getD 1 [] = ascii "pack" → ∀ ok,
      pack (argv.getD 2 []) (argv.getD 3 []) (find_password (argv.drop 4)) = some ok →
      main pack unpack argv = some (if ok then 0 else 2)) ∧
    (4 ≤ argv.length → argv.getD 1 [] = ascii "unpack" → ∀ ok,
      unpack (argv.getD 2 []) (argv.getD 3 []) (find_password (argv.drop 4)) = some ok →
      main pack unpack argv = some (if ok then 0 else 3)) ∧
    (4 ≤ argv.length → argv.getD 1 [] = ascii "pack" →
      pack (argv.getD 2 []) (argv.getD 3 []) (find_password (argv.drop 4)) = none →
      main pack unpack argv = none) ∧
    (4 ≤ argv.length → argv.getD 1 [] = ascii "unpack" →
      unpack (argv.getD 2 []) (argv.getD 3 []) (find_password (argv.drop 4)) = none →
      main pack unpack argv = none) ∧
    (∀ r, main pack unpack argv = some r → r = 0 ∨ r = 1 ∨ r = 2 ∨ r = 3) := by
  have hpu : ascii "unpack" ≠ ascii "pack" := by decide
  refine ⟨?_, ?_, ?_, ?_, ?_, ?_, ?_⟩
  · intro h
    unfold main
    rw [if_pos h]
  · intro h h1 h2
    have h' : ¬ argv.length < 4 := by omega
    unfold main
    rw [if_neg h']
    dsimp only
    rw [if_neg h1, if_neg h2]
  · intro h h1 ok hok
    have h' : ¬ argv.length < 4 := by omega
    unfold main
    rw [if_neg h']
    dsimp only
    rw [if_pos h1, hok]
    rfl
  · intro h h1 ok hok
    have h' : ¬ argv.length < 4 := by omega
    have h2 : argv.getD 1 [] ≠ ascii "pack" := by rw [h1]; exact hpu
    unfold main
    rw [if_neg h']
    dsimp only
    rw [if_neg h2, if_pos h1, hok]
    rfl
  · intro h h1 hno
    have h' : ¬ argv.length < 4 := by omega
    unfold main
    rw [if_neg h']
    dsimp only
    rw [if_pos h1, hno]
    rfl
  · intro h h1 hno
    have h' : ¬ argv.length < 4 := by omega
    have h2 : argv.getD 1 [] ≠ ascii "pack" := by rw [h1]; exact hpu
    unfold main
    rw [if_neg h']
    dsimp only
    rw [if_neg h2, if_pos h1, hno]
    rfl
  · intro r hr
    unfold main at hr
    dsimp only at hr
    split at hr
    · simp only [Option.some.injEq] at hr
      omega
    · split at hr
      · rcases hp : pack (argv.getD 2 []) (argv.getD 3 []) (find_password (argv.drop 4))
          with _ | ok
        · rw [hp] at hr; simp at hr
        · rw [hp] at hr
          simp only [Option.map_some', Option.some.injEq] at hr
          cases ok <;> simp at hr <;> omega
      · split at hr
        · rcases hp : unpack (argv.getD 2 []) (argv.getD 3 []) (find_password (argv.drop 4))
            with _ | ok
          · rw [hp] at hr; simp at hr
          · rw [hp] at hr
            simp only [Option.map_some', Option.some.injEq] at hr
            cases ok <;> simp at hr <;> omega
        · simp only [Option.some.injEq] at hr
          omega

/-- C9, amended, on six argument vectors: a pack that succeeds, an unpack that succeeds, an
unpack of a file that is not there, an unknown command, too few arguments, and a pack of a
folder that is not there. -/
theorem main_exit_status_witness :
    main (pack_call (demo 2) (walk_dir two_files) [1, 0] (fun _ => true))
        (unpack_call (demo 2) (one_file (YAL1 ++ le64 0)) [0, 0, 0, 0])
        [ascii "archiver", ascii "pack", ascii "dir", ascii "a.yal"] = some 0 ∧
    main (pack_call (demo 2) (walk_dir two_files) [1, 0] (fun _ => true))
        (unpack_call (demo 2) (one_file (YAL1 ++ le64 0)) [0, 0, 0, 0])
        [ascii "archiver", ascii "unpack", ascii "a.yal", ascii "out"] = some 0 ∧
    main (pack_call (demo 2) (walk_dir two_files) [1, 0] (fun _ => true))
        (unpack_call (demo 2) (one_file (YAL1 ++ le64 0)) [0, 0, 0, 0])
        [ascii "archiver", ascii "unpack", ascii "b.yal", ascii "out", ascii "--password",
          ascii "pw"] = some 3 ∧
    main (pack_call (demo 2) (walk_dir two_files) [1, 0] (fun _ => true))
        (unpack_call (demo 2) (one_file (YAL1 ++ le64 0)) [0, 0, 0, 0])
        [ascii "archiver", ascii "list", ascii "a.yal", ascii "out"] = some 1 ∧
    main (pack_call (demo 2) (walk_dir two_files) [1, 0] (fun _ => true))
        (unpack_call (demo 2) (one_file (YAL1 ++ le64 0)) [0, 0, 0, 0])
        [ascii "archiver", ascii "pack", ascii "dir"] = some 1 ∧
    main (pack_call (demo 2) (walk_dir two_files) [1, 0] (fun _ => true))
        (unpack_call (demo 2) (one_file (YAL1 ++ le64 0)) [0, 0, 0, 0])
        [ascii "archiver", ascii "pack", ascii "nodir", ascii "a.yal"] = none :=
  ⟨(main_exit_status _ _ _).2.2.1 (by decide) (by decide) true (by decide),
   (main_exit_status _ _ _).2.2.2.1 (by decide) (by decide) true (by decide),
   (main_exit_status _ _ _).2.2.2.1 (by decide) (by decide) false (by decide),
   (main_exit_status _ _ _).2.1 (by decide) (by decide) (by decide),
   (main_exit_status _ _ _).1 (by decide),
   (main_exit_status _ _ _).2.2.2.2.1 (by decide) (by decide) (by decide)⟩

/-- C9, counterexample: `unpack` of a container whose second entry needs the first as a
directory, `unpack` of a container that declares `2 ^ 32` entries, and `pack` of a folder
that is not there. Each call ends by an exception, so that neither true nor false is
returned, and `main` returns no status: not 0, not 2, not 3. -/
theorem main_aborts_on_exception :
    (unpack_call (demo 2) (one_file conflicting_paths) [0, 0, 0, 0] (ascii "a.yal")
        (ascii "out") [] = none ∧
      main (pack_call (demo 2) (walk_dir two_files) [1, 0] (fun _ => true))
        (unpack_call (demo 2) (one_file conflicting_paths) [0, 0, 0, 0])
        [ascii "archiver", ascii "unpack", ascii "a.yal", ascii "out"] = none) ∧
    (unpack_call (demo 2) (one_file (YAL1 ++ le64 (2 ^ 32))) [0, 0, 0, 0] (ascii "a.yal")
        (ascii "out") [] = none ∧
      main (pack_call (demo 2) (walk_dir two_files) [1, 0] (fun _ => true))
        (unpack_call (demo 2) (one_file (YAL1 ++ le64 (2 ^ 32))) [0, 0, 0, 0])
        [ascii "archiver", ascii "unpack", ascii "a.yal", ascii "out"] = none) ∧
    (pack_call (demo 2) (walk_dir two_files) [1, 0] (fun _ => true) (ascii "nodir")
        (ascii "a.yal") [] = none ∧
      main (pack_call (demo 2) (walk_dir two_files) [1, 0] (fun _ => true))
        (unpack_call (demo 2) (one_file conflicting_paths) [0, 0, 0, 0])
        [ascii "archiver", ascii "pack", ascii "nodir", ascii "a.yal"] = none) := by
  refine ⟨⟨?_, ?_⟩, ⟨?_, ?_⟩, ⟨?_, ?_⟩⟩ <;> decide

/-! ### The gates of `unpack_archive` -/

theorem read_magic (content magic0 : Bytes) (h4 : 4 ≤ content.length) :
    ((IStream.mk content 0 false).read 4 magic0).1 = IStream.mk content 4 false ∧
    ((IStream.mk content 0 false).read 4 magic0).2.take 4 = content.take 4 := by
  unfold IStream.read
  simp only [Bool.false_eq_true, if_false, List.drop_zero, if_pos h4, Nat.zero_add, true_and]
  rw [List.take_append_eq_append_take]
  simp [List.length_take, Nat.min_eq_left h4]

/-- C8: on a readable container of at least four bytes `unpack_archive` returns false and
writes no file when the first four bytes are neither `YAL1` nor `YALC`, and also when they
are `YALC` and the password is empty. -/
theorem unpack_magic_gate (P : Platform) (content password magic0 : Bytes)
    (h4 : 4 ≤ content.length) :
    (content.take 4 ≠ YAL1 → content.take 4 ≠ YALC →
      unpack_archive P (some content) password magic0 = some (false, [])) ∧
    (content.take 4 = YALC →
      unpack_archive P (some content) [] magic0 = some (false, [])) := by
  have hm := (read_magic content magic0 h4).2
  constructor
  · intro h1 hC
    unfold unpack_archive
    simp only [hm, if_neg hC, if_pos h1, ne_eq, not_false_eq_true]
  · intro hC
    unfold unpack_archive
    simp only [hm, if_pos hC, if_true]

/-- C8 on a container that starts with `PK` and on a `YALC` container opened without a
password. -/
theorem unpack_magic_gate_witness :
    unpack_archive (demo 2) (some [80, 75, 3, 4, 20, 0]) [112] [0, 0, 0, 0] = some (false, []) ∧
    unpack_archive (demo 2) (some (YALC ++ List.replicate 16 0 ++ YAL1 ++ le64 0)) [] [0, 0, 0, 0]
      = some (false, []) :=
  ⟨(unpack_magic_gate (demo 2) [80, 75, 3, 4, 20, 0] [112] [0, 0, 0, 0] (by decide)).1
      (by decide) (by decide),
   (unpack_magic_gate (demo 2) (YALC ++ List.replicate 16 0 ++ YAL1 ++ le64 0) [] [0, 0, 0, 0]
      (by decide)).2 (by decide)⟩

theorem thread_indices_zero (tc t : Nat) : thread_indices 0 tc t = [] := by
  unfold thread_indices range_end
  simp

/-- Nothing can be read from a stream that has no file open: the count stays 0, no entry
is processed, and lines 178-219 return true without writing a file. -/
theorem unpack_entries_closed (P : Platform) (hv : P.vector_ok 0 = true) (buf : Bytes) :
    unpack_entries P (closed_stream.read 4 buf).1 = some (true, []) := by
  have hs : (closed_stream.read 4 buf).1 = closed_stream := rfl
  have hc : read_uint64 closed_stream 0 = (closed_stream, 0) := by decide
  have hd : read_directory P closed_stream = some (closed_stream, 0, [], -1) := by
    unfold read_directory
    rw [hc]
    simp only [hv, Bool.true_eq_false, if_false, read_entries]
    rfl
  have hi : (List.range (thread_count P)).flatMap (thread_indices 0 (thread_count P)) = [] := by
    rw [List.flatMap_eq_nil_iff]
    intro t _
    exact thread_indices_zero _ t
  rw [hs]
  unfold unpack_entries
  rw [hd]
  dsimp only
  unfold run_unpack
  simp only [List.length_nil, hi]
  rfl

/-- After a decryption that succeeds, whatever the plaintext is, `unpack_archive` returns
true and writes no file: the plaintext is never read. -/
theorem unpack_decrypted (P : Platform) (content password magic0 plain : Bytes)
    (h4 : 4 ≤ content.length) (hm : content.take 4 = YALC) (hp : password ≠ [])
    (hv : P.vector_ok 0 = true)
    (hd : aes_decrypt P (((IStream.mk content 4 false).read 16 (List.replicate 16 0)).1.rest)
      password ((IStream.mk content 4 false).read 16 (List.replicate 16 0)).2 = some plain) :
    unpack_archive P (some content) password magic0 = some (true, []) := by
  have hr := read_magic content magic0 h4
  unfold unpack_archive
  simp only [hr.2, hr.1, hm, if_true, if_neg hp, hd]
  exact unpack_entries_closed P hv _

/-- C6, failing input: a `YALC` container whose payload decrypts, under the password
`wrong`, to bytes that start with `XXXX` instead of `YAL1`: `unpack_archive` returns true.
The plaintext is never compared with `YAL1`, nor read at all, so no file is written. -/
theorem wrong_password_accepted :
    garbage_plain.take 4 ≠ YAL1 ∧
    aes_decrypt (demo 2) garbage_plain [119, 114, 111, 110, 103] (List.replicate 16 0)
      = some garbage_plain ∧
    unpack_archive (demo 2) (some (YALC ++ List.replicate 16 0 ++ garbage_plain))
      [119, 114, 111, 110, 103] [0, 0, 0, 0] = some (true, []) := by
  refine ⟨?_, ?_, ?_⟩ <;> decide

/-! ### The codec -/

theorem length_le64 (v : Nat) : (le64 v).length = 8 := by
  simp [le64]

theorem from_le64_le64 (v : Nat) (hv : v < 2 ^ 64) : from_le64 (le64 v) = v := by
  simp only [le64, from_le64, byte_of, List.range, List.range.loop, List.map, List.foldr]
  omega

theorem read_chunk (s : IStream) (chunk post buf : Bytes) (hf : s.failed = false)
    (hr : s.rest = chunk ++ post) :
    (s.read chunk.length buf).2 = chunk ++ buf.drop chunk.length ∧
    (s.read chunk.length buf).1.failed = false ∧
    (s.read chunk.length buf).1.data = s.data ∧
    (s.read chunk.length buf).1.pos = s.pos + chunk.length ∧
    (s.read chunk.length buf).1.rest = post := by
  unfold IStream.rest at hr
  have hlen : chunk.length ≤ (s.data.drop s.pos).length := by
    rw [hr]; simp
  unfold IStream.read
  rw [hf]
  simp only [Bool.false_eq_true, if_false, if_pos hlen]
  refine ⟨?_, trivial, trivial, trivial, ?_⟩
  · rw [hr, List.take_left]
  · unfold IStream.rest
    show List.drop (s.pos + chunk.length) s.data = post
    rw [← List.drop_drop, hr, List.drop_left]

theorem read_uint64_value (s : IStream) (v : Nat) (post : Bytes) (hv : v < 2 ^ 64)
    (hf : s.failed = false) (hr : s.rest = le64 v ++ post) :
    (read_uint64 s 0).2 = v ∧
    (read_uint64 s 0).1.failed = false ∧
    (read_uint64 s 0).1.data = s.data ∧
    (read_uint64 s 0).1.pos = s.pos + 8 ∧
    (read_uint64 s 0).1.rest = post := by
  have h := read_chunk s (le64 v) post (le64 0) hf hr
  rw [length_le64] at h
  unfold read_uint64
  refine ⟨?_, h.2.1, h.2.2.1, h.2.2.2.1, h.2.2.2.2⟩
  show from_le64 (s.read 8 (le64 0)).2 = v
  rw [h.1]
  have : List.drop 8 (le64 0) = [] := by decide
  rw [this, List.append_nil, from_le64_le64 v hv]

theorem write_entry_eq (oss : Bytes) (f : FileEntry) (hf : f.fits) :
    write_entry oss f = oss ++ entry_record f := by
  obtain ⟨h1, h2, h3, h4⟩ := hf
  unfold write_entry write_string write_uint64 entry_record
  rw [Nat.mod_eq_of_lt h1, Nat.mod_eq_of_lt h1, Nat.mod_eq_of_lt h2, Nat.mod_eq_of_lt h3,
    Nat.mod_eq_of_lt h4, List.take_length]
  simp only [List.append_assoc]

theorem foldl_write_entry (files : List FileEntry) (hf : ∀ f ∈ files, f.fits) :
    ∀ oss, files.foldl write_entry oss = oss ++ files.flatMap entry_record := by
  induction files with
  | nil => intro oss; simp
  | cons f fs ih =>
    intro oss
    rw [List.foldl_cons, write_entry_eq oss f (hf f (List.mem_cons_self _ _)),
      ih (fun g hg => hf g (List.mem_cons_of_mem _ hg))]
    simp [List.flatMap_cons]

theorem foldl_append_blocks (blocks : List Bytes) :
    ∀ oss : Bytes, blocks.foldl (fun oss c => oss ++ c) oss = oss ++ blocks.flatten := by
  induction blocks with
  | nil => intro oss; simp
  | cons b bs ih => intro oss; rw [List.foldl_cons, ih]; simp

theorem serialize_eq (files : List FileEntry) (blocks : List Bytes) :
    serialize files blocks = write_directory files ++ blocks.flatten := by
  unfold serialize
  exact foldl_append_blocks blocks _

theorem write_directory_eq (files : List FileEntry) (hc : files.length < 2 ^ 64)
    (hf : ∀ f ∈ files, f.fits) :
    write_directory files = YAL1 ++ le64 files.length ++ files.flatMap entry_record := by
  unfold write_directory
  rw [foldl_write_entry files hf]
  unfold write_uint64
  rw [Nat.mod_eq_of_lt hc]

theorem length_entry_record (f : FileEntry) :
    (entry_record f).length = 32 + f.relative_path.length := by
  unfold entry_record
  simp only [List.length_append, length_le64]
  omega

theorem read_entry_record (P : Platform) (s : IStream) (f : FileEntry) (post : Bytes)
    (hfit : f.fits) (hb : P.buffer_ok f.relative_path.length = true)
    (hf : s.failed = false) (hr : s.rest = entry_record f ++ post) :
    ∃ s1, read_entry P s = some (s1, f.toEntry) ∧ s1.failed = false ∧ s1.data = s.data ∧
      s1.pos = s.pos + (32 + f.relative_path.length) ∧ s1.rest = post := by
  obtain ⟨h1, h2, h3, h4⟩ := hfit
  unfold entry_record at hr
  simp only [List.append_assoc] at hr
  obtain ⟨a1, a2, a3, a4, a5⟩ := read_uint64_value s _ _ h1 hf hr
  have hbuf := read_chunk (read_uint64 s 0).1 f.relative_path _
    (List.replicate f.relative_path.length 0) a2 a5
  obtain ⟨b1, b2, b3, b4, b5⟩ := hbuf
  rw [List.drop_replicate, Nat.sub_self, List.replicate_zero, List.append_nil] at b1
  obtain ⟨c1, c2, c3, c4, c5⟩ := read_uint64_value _ _ _ h2 b2 b5
  obtain ⟨d1, d2, d3, d4, d5⟩ := read_uint64_value _ _ _ h3 c2 c5
  obtain ⟨e1, e2, e3, e4, e5⟩ := read_uint64_value _ _ _ h4 d2 d5
  unfold read_entry
  rw [a1, if_neg (by simp [hb])]
  dsimp only
  refine ⟨_, ?_, e2, ?_, ?_, e5⟩
  · rw [b1, c1, d1, e1]; rfl
  · rw [e3, d3, c3, b3, a3]
  · rw [e4, d4, c4, b4, a4]; omega

theorem read_entries_records (P : Platform) (files : List FileEntry) (post : Bytes)
    (hfit : ∀ f ∈ files, f.fits)
    (hb : ∀ f ∈ files, P.buffer_ok f.relative_path.length = true) :
    ∀ s : IStream, s.failed = false → s.rest = files.flatMap entry_record ++ post →
      ∃ s1, read_entries P files.length s = some (s1, files.map FileEntry.toEntry) ∧
        s1.failed = false ∧ s1.data = s.data ∧
        s1.pos = s.pos + (files.map (fun f => 32 + f.relative_path.length)).sum ∧
        s1.rest = post := by
  induction files with
  | nil =>
    intro s hf hr
    exact ⟨s, rfl, hf, rfl, by simp, by simpa using hr⟩
  | cons f fs ih =>
    intro s hf hr
    rw [List.flatMap_cons, List.append_assoc] at hr
    obtain ⟨s1, r1, r2, r3, r4, r5⟩ := read_entry_record P s f _
      (hfit f (List.mem_cons_self _ _)) (hb f (List.mem_cons_self _ _)) hf hr
    obtain ⟨s2, q1, q2, q3, q4, q5⟩ := ih (fun g hg => hfit g (List.mem_cons_of_mem _ hg))
      (fun g hg => hb g (List.mem_cons_of_mem _ hg)) s1 r2 r5
    refine ⟨s2, ?_, q2, by rw [q3, r3], ?_, q5⟩
    · simp only [List.length_cons, read_entries, r1, q1, List.map_cons]
    · rw [q4, r4]; simp only [List.map_cons, List.sum_cons]; omega

theorem length_write_directory (files : List FileEntry) (hc : files.length < 2 ^ 64)
    (hf : ∀ f ∈ files, f.fits) :
    (write_directory files).length
      = 12 + (files.map (fun f => 32 + f.relative_path.length)).sum := by
  rw [write_directory_eq files hc hf]
  simp only [List.length_append, length_le64]
  have h4 : YAL1.length = 4 := rfl
  rw [h4]
  have : (files.flatMap entry_record).length
      = (files.map (fun f => 32 + f.relative_path.length)).sum := by
    clear hc hf
    induction files with
    | nil => rfl
    | cons f fs ih =>
      rw [List.flatMap_cons, List.length_append, ih, length_entry_record]
      simp
  omega

/-- C2: for entries whose fields fit their 64-bit types (and a platform that can allocate
the directory), reading the bytes `pack_folder` serialises with the directory reader of
`unpack_archive` finds the magic `YAL1`, returns the same count and the same entries in the
same order, leaves the stream in the good state, and computes as data-section start the
position right after the last record, `12 + sum (32 + path length)`, where the blocks
begin. -/
theorem codec_round_trip (P : Platform) (files : List FileEntry) (blocks : List Bytes)
    (magic0 : Bytes) (hc : files.length < 2 ^ 64) (hfit : ∀ f ∈ files, f.fits)
    (hv : P.vector_ok files.length = true)
    (hb : ∀ f ∈ files, P.buffer_ok f.relative_path.length = true) :
    (((IStream.mk (serialize files blocks) 0 false).read 4 magic0).2.take 4 = YAL1) ∧
    read_directory P ((IStream.mk (serialize files blocks) 0 false).read 4 magic0).1
      = some (IStream.mk (serialize files blocks)
            (12 + (files.map (fun f => 32 + f.relative_path.length)).sum) false,
          files.length, files.map FileEntry.toEntry,
          ((12 + (files.map (fun f => 32 + f.relative_path.length)).sum : Nat) : Int)) ∧
    (write_directory files).length
      = 12 + (files.map (fun f => 32 + f.relative_path.length)).sum ∧
    (serialize files blocks).drop (12 + (files.map (fun f => 32 + f.relative_path.length)).sum)
      = blocks.flatten := by
  have hser : serialize files blocks
      = YAL1 ++ (le64 files.length ++ (files.flatMap entry_record ++ blocks.flatten)) := by
    rw [serialize_eq, write_directory_eq files hc hfit]
    simp only [List.append_assoc]
  have hlen := length_write_directory files hc hfit
  have h4 : 4 ≤ (serialize files blocks).length := by
    rw [hser]; simp [YAL1]
  obtain ⟨m1, m2⟩ := read_magic (serialize files blocks) magic0 h4
  have hrest : (IStream.mk (serialize files blocks) 4 false).rest
      = le64 files.length ++ (files.flatMap entry_record ++ blocks.flatten) := by
    unfold IStream.rest
    show List.drop 4 (serialize files blocks) = _
    rw [hser]
    exact List.drop_left YAL1 _
  obtain ⟨a1, a2, a3, a4, a5⟩ := read_uint64_value _ _ _ hc rfl hrest
  obtain ⟨s1, q1, q2, q3, q4, q5⟩ := read_entries_records P files blocks.flatten hfit hb _ a2 a5
  refine ⟨?_, ?_, hlen, ?_⟩
  · rw [m2, hser]
    exact List.take_left YAL1 _
  · rw [m1]
    unfold read_directory
    rw [a1, if_neg (by simp [hv]), q1]
    dsimp only
    have hs1 : s1 = IStream.mk (serialize files blocks)
        (12 + (files.map (fun f => 32 + f.relative_path.length)).sum) false := by
      cases s1 with
      | mk d p f =>
        simp only at q2 q3 q4
        rw [a3] at q3
        rw [a4] at q4
        simp only at q3 q4
        subst q2 q3
        rw [q4]
    rw [hs1]
    simp [IStream.tellg]
  · rw [← hlen, serialize_eq]
    exact List.drop_left _ _

/-- C2 on a directory of two entries, `a` and `s/b`, with two blocks. -/
theorem codec_round_trip_witness :
    (((IStream.mk (serialize [⟨[97], 5, 14, 0⟩, ⟨[115, 47, 98], 1000, 19, 14⟩]
      [[1, 2], [3]]) 0 false).read 4 [0, 0, 0, 0]).2.take 4 = YAL1) ∧
    read_directory (demo 2) ((IStream.mk (serialize [⟨[97], 5, 14, 0⟩,
        ⟨[115, 47, 98], 1000, 19, 14⟩] [[1, 2], [3]]) 0 false).read 4 [0, 0, 0, 0]).1
      = some (IStream.mk (serialize [⟨[97], 5, 14, 0⟩, ⟨[115, 47, 98], 1000, 19, 14⟩]
            [[1, 2], [3]])
            (12 + (([⟨[97], 5, 14, 0⟩, ⟨[115, 47, 98], 1000, 19, 14⟩] : List FileEntry).map
              (fun f => 32 + f.relative_path.length)).sum) false,
          ([⟨[97], 5, 14, 0⟩, ⟨[115, 47, 98], 1000, 19, 14⟩] : List FileEntry).length,
          ([⟨[97], 5, 14, 0⟩, ⟨[115, 47, 98], 1000, 19, 14⟩] : List FileEntry).map
            FileEntry.toEntry,
          ((12 + (([⟨[97], 5, 14, 0⟩, ⟨[115, 47, 98], 1000, 19, 14⟩] : List FileEntry).map
              (fun f => 32 + f.relative_path.length)).sum : Nat) : Int)) ∧
    (write_directory [⟨[97], 5, 14, 0⟩, ⟨[115, 47, 98], 1000, 19, 14⟩]).length
      = 12 + (([⟨[97], 5, 14, 0⟩, ⟨[115, 47, 98], 1000, 19, 14⟩] : List FileEntry).map
          (fun f => 32 + f.relative_path.length)).sum ∧
    (serialize [⟨[97], 5, 14, 0⟩, ⟨[115, 47, 98], 1000, 19, 14⟩] [[1, 2], [3]]).drop
        (12 + (([⟨[97], 5, 14, 0⟩, ⟨[115, 47, 98], 1000, 19, 14⟩] : List FileEntry).map
          (fun f => 32 + f.relative_path.length)).sum)
      = ([[1, 2], [3]] : List Bytes).flatten :=
  codec_round_trip (demo 2) [⟨[97], 5, 14, 0⟩, ⟨[115, 47, 98], 1000, 19, 14⟩] [[1, 2], [3]]
    [0, 0, 0, 0] (by decide) (by decide) (by decide) (by decide)

/-! ### The offset counter -/

theorem sum_set_zero (L : List Nat) (a : Nat) :
    ∀ i, L[i]? = some 0 → (L.set i a).sum = L.sum + a := by
  induction L with
  | nil => intro i h; simp at h
  | cons x xs ih =>
    intro i h
    cases i with
    | zero =>
      simp only [List.getElem?_cons_zero, Option.some.injEq] at h
      simp only [List.set_cons_zero, List.sum_cons]
      omega
    | succ j =>
      simp only [List.getElem?_cons_succ] at h
      simp only [List.set_cons_succ, List.sum_cons, ih j h]
      omega

theorem ranges_disjoint (n tc t u i j : Nat) (hov : n + tc - 1 < 2 ^ 64) (ht : t < tc)
    (hu : u < tc) (hne : t ≠ u) (hi1 : range_begin n tc t ≤ i) (hi2 : i < range_end n tc t)
    (hj1 : range_begin n tc u ≤ j) (hj2 : j < range_end n tc u) : i ≠ j := by
  rw [range_begin_eq n tc t hov (Nat.le_of_lt ht)] at hi1
  rw [range_begin_eq n tc u hov (Nat.le_of_lt hu)] at hj1
  rw [range_end_eq n tc t hov ht] at hi2
  rw [range_end_eq n tc u hov hu] at hj2
  rcases Nat.lt_or_gt_of_ne hne with h | h
  · have : (t + 1) * batch n tc ≤ u * batch n tc := Nat.mul_le_mul_right _ h
    omega
  · have : (u + 1) * batch n tc ≤ t * batch n tc := Nat.mul_le_mul_right _ h
    omega

theorem pack_worker_cases (P : Platform) (fp : List SourceFile) (st : PackState) (i : Nat) :
    pack_worker P fp st i = st ∨
    ∃ rel data cdata, fp[i]? = some (rel, some data) ∧ P.ZSTD_compress data = some cdata ∧
      pack_worker P fp st i =
        { st with
          files := st.files.set i ⟨rel, data.length, cdata.length, st.offset⟩
          compressed_data := st.compressed_data.set i cdata
          offset := (st.offset + cdata.length) % 2 ^ 64 } := by
  unfold pack_worker
  split
  · exact Or.inl rfl
  · exact Or.inl rfl
  · next rel data h =>
    split
    · exact Or.inl rfl
    · next cdata hc => exact Or.inr ⟨rel, data, cdata, h, hc, rfl⟩

theorem pack_worker_next (P : Platform) (fp : List SourceFile) (st : PackState) (i : Nat) :
    (pack_worker P fp st i).next = st.next := by
  rcases pack_worker_cases P fp st i with h | ⟨_, _, _, _, _, h⟩ <;> rw [h]

theorem thread_step_cases (P : Platform) (fp : List SourceFile) (tc : Nat) (st : PackState)
    (t : Nat) :
    thread_step P fp tc st t = st ∨
    ∃ i, st.next[t]? = some i ∧ i < range_end fp.length tc t ∧
      thread_step P fp tc st t = { pack_worker P fp st i with next := st.next.set t (i + 1) } := by
  unfold thread_step
  split
  · exact Or.inl rfl
  · next i h =>
    split
    · next hlt => exact Or.inr ⟨i, h, hlt, rfl⟩
    · exact Or.inl rfl


theorem PackInv.advance {n tc : Nat} {st st1 : PackState} {t i : Nat} (h : PackInv n tc st)
    (hov : n + tc - 1 < 2 ^ 64) (hi : st.next[t]? = some i) (hlt : i < range_end n tc t)
    (hn : st1.next = st.next.set t (i + 1)) (hfl : st1.files.length = n)
    (hdl : st1.compressed_data.length = n)
    (hf : ∀ j, j ≠ i → st1.files[j]? = st.files[j]?)
    (hd : ∀ j, j ≠ i → st1.compressed_data[j]? = st.compressed_data[j]?)
    (hs : st1.files.map FileEntry.compressed_size = st1.compressed_data.map List.length) :
    PackInv n tc st1 := by
  have htl : t < st.next.length := by
    rcases List.getElem?_eq_some.1 hi with ⟨hlt2, _⟩
    exact hlt2
  have htc : t < tc := by rw [← h.next_len]; exact htl
  refine ⟨hfl, hdl, by rw [hn, List.length_set, h.next_len], ?_, ?_, hs⟩
  · intro u k hk
    rw [hn, List.getElem?_set] at hk
    by_cases htu : t = u
    · subst htu
      rw [if_pos rfl, if_pos htl] at hk
      have := h.next_ge t i hi
      simp only [Option.some.injEq] at hk
      omega
    · rw [if_neg htu] at hk
      exact h.next_ge u k hk
  · intro u k j hk hkj hj
    rw [hn, List.getElem?_set] at hk
    by_cases htu : t = u
    · subst htu
      rw [if_pos rfl, if_pos htl] at hk
      simp only [Option.some.injEq] at hk
      have hne : j ≠ i := by omega
      rw [hf j hne, hd j hne]
      exact h.pending t i j hi (by omega) hj
    · rw [if_neg htu] at hk
      have hul : u < tc := by
        rw [← h.next_len]
        rcases List.getElem?_eq_some.1 hk with ⟨hlt2, _⟩
        exact hlt2
      have hne : j ≠ i := by
        intro e
        exact ranges_disjoint n tc t u i j hov htc hul htu (h.next_ge t i hi) hlt
          (Nat.le_trans (h.next_ge u k hk) hkj) hj e.symm
      rw [hf j hne, hd j hne]
      exact h.pending u k j hk hkj hj

theorem thread_step_inv (P : Platform) (fp : List SourceFile) (tc : Nat) (st : PackState)
    (t : Nat) (hov : fp.length + tc - 1 < 2 ^ 64) (h : PackInv fp.length tc st) :
    PackInv fp.length tc (thread_step P fp tc st t) := by
  rcases thread_step_cases P fp tc st t with h0 | ⟨i, hi, hlt, hs⟩
  · rw [h0]; exact h
  · rw [hs]
    rcases pack_worker_cases P fp st i with hw | ⟨rel, data, cdata, _, _, hw⟩
    · rw [hw]
      exact h.advance hov hi hlt rfl h.files_len h.data_len (fun _ _ => rfl) (fun _ _ => rfl)
        h.sizes
    · rw [hw]
      refine h.advance hov hi hlt rfl ?_ ?_ ?_ ?_ ?_
      · simp only [List.length_set]; exact h.files_len
      · simp only [List.length_set]; exact h.data_len
      · intro j hj
        exact List.getElem?_set_ne (Ne.symm hj)
      · intro j hj
        exact List.getElem?_set_ne (Ne.symm hj)
      · simp only [List.map_set]
        rw [h.sizes]

theorem pack_init_inv (n tc : Nat) : PackInv n tc (pack_init n tc) := by
  refine ⟨by simp [pack_init], by simp [pack_init], by simp [pack_init], ?_, ?_,
    by simp [pack_init, FileEntry.empty]⟩
  · intro t i hi
    simp only [pack_init, List.getElem?_map] at hi
    rcases ht : (List.range tc)[t]? with _ | v
    · rw [ht] at hi; simp at hi
    · rw [ht] at hi
      have hv : v = t := by
        rcases List.getElem?_eq_some.1 ht with ⟨hl, hv⟩
        rw [List.getElem_range] at hv
        exact hv.symm
      subst hv
      simp only [Option.map_some', Option.some.injEq] at hi
      omega
  · intro t i j _ _ hj
    have hjn : j < n := by
      have : range_end n tc t ≤ n := by unfold range_end; exact Nat.min_le_right _ _
      omega
    simp [pack_init, List.getElem?_replicate, hjn]

theorem run_threads_inv (P : Platform) (fp : List SourceFile) (tc : Nat) (schedule : List Nat)
    (hov : fp.length + tc - 1 < 2 ^ 64) :
    PackInv fp.length tc (run_threads P fp tc schedule) := by
  unfold run_threads
  have key : ∀ (l : List Nat) (st : PackState), PackInv fp.length tc st →
      PackInv fp.length tc (l.foldl (thread_step P fp tc) st) := by
    intro l
    induction l with
    | nil => intro st h; exact h
    | cons t l ih =>
      intro st h
      exact ih _ (thread_step_inv P fp tc st t hov h)
  exact key schedule _ (pack_init_inv _ _)

theorem tiles_append (L M : List FileEntry) (c : Nat) :
    ∀ a b, tiles a L b → tiles b M c → tiles a (L ++ M) c := by
  induction L with
  | nil => intro a b h1 h2; simp only [tiles] at h1; subst h1; exact h2
  | cons f L ih =>
    intro a b h1 h2
    exact ⟨h1.1, ih _ _ h1.2 h2⟩

theorem tiles_erase_empty (L : List FileEntry) (b : Nat) :
    ∀ a, tiles a L b → tiles a (L.erase FileEntry.empty) b := by
  induction L with
  | nil => intro a h; exact h
  | cons f L ih =>
    intro a h
    by_cases hf : f = FileEntry.empty
    · subst hf
      rw [List.erase_cons_head]
      have := h.2
      simpa [FileEntry.empty] using this
    · rw [List.erase_cons_tail (by simpa using hf)]
      exact ⟨h.1, ih _ h.2⟩

theorem tiles_sorted (L : List FileEntry) (b : Nat) :
    ∀ a, tiles a L b →
      (∀ f ∈ L, a ≤ f.offset) ∧ L.Pairwise (fun f g => f.offset ≤ g.offset) := by
  induction L with
  | nil => intro a _; exact ⟨by simp, List.Pairwise.nil⟩
  | cons f L ih =>
    intro a h
    obtain ⟨h1, h2⟩ := ih _ h.2
    have hfa := h.1
    constructor
    · intro g hg
      rcases List.mem_cons.1 hg with e | e
      · subst e; omega
      · have := h1 g e; omega
    · refine List.Pairwise.cons ?_ h2
      intro g hg
      have := h1 g hg
      omega

theorem perm_set_erase (x e : FileEntry) (files : List FileEntry) :
    ∀ i, files[i]? = some x → (files.set i e).Perm (e :: files.erase x) := by
  induction files with
  | nil => intro i h; simp at h
  | cons y ys ih =>
    intro i h
    cases i with
    | zero =>
      simp only [List.getElem?_cons_zero, Option.some.injEq] at h
      subst h
      rw [List.set_cons_zero, List.erase_cons_head]
    | succ j =>
      simp only [List.getElem?_cons_succ] at h
      rw [List.set_cons_succ]
      have hmem : x ∈ ys := List.mem_iff_getElem?.2 ⟨j, h⟩
      by_cases hy : y = x
      · subst hy
        rw [List.erase_cons_head]
        exact ((ih j h).cons y).trans ((List.Perm.swap e y _).trans
          ((List.perm_cons_erase hmem).symm.cons e))
      · rw [List.erase_cons_tail (by simpa using hy)]
        exact ((ih j h).cons y).trans (List.Perm.swap e y _)

theorem thread_step_total (P : Platform) (fp : List SourceFile) (tc : Nat) (st : PackState)
    (t : Nat) (h : PackInv fp.length tc st) :
    st.total ≤ (thread_step P fp tc st t).total := by
  rcases thread_step_cases P fp tc st t with h0 | ⟨i, hi, hlt, hs⟩
  · rw [h0]
  · rw [hs]
    rcases pack_worker_cases P fp st i with hw | ⟨rel, data, cdata, _, _, hw⟩
    · rw [hw]; exact Nat.le_refl _
    · rw [hw]
      unfold PackState.total
      simp only [List.map_set]
      have hz : (st.compressed_data.map List.length)[i]? = some 0 := by
        rw [List.getElem?_map, (h.pending t i i hi (Nat.le_refl _) hlt).2]
        rfl
      rw [sum_set_zero _ _ i hz]
      omega

theorem thread_step_covered (P : Platform) (fp : List SourceFile) (tc : Nat) (st : PackState)
    (t : Nat) (hov : fp.length + tc - 1 < 2 ^ 64) (h : PackInv fp.length tc st)
    (hc : Covered st) (hT : (thread_step P fp tc st t).total < 2 ^ 64) :
    Covered (thread_step P fp tc st t) := by
  have hinv := thread_step_inv P fp tc st t hov h
  rcases thread_step_cases P fp tc st t with h0 | ⟨i, hi, hlt, hs⟩
  · rw [h0]; exact hc
  · rw [hs] at hT hinv ⊢
    rcases pack_worker_cases P fp st i with hw | ⟨rel, data, cdata, _, _, hw⟩
    · rw [hw]; exact ⟨hc.sum, hc.bound, hc.cover, hc.chain⟩
    · rw [hw] at hT hinv ⊢
      obtain ⟨hfi, hdi⟩ := h.pending t i i hi (Nat.le_refl _) hlt
      have hil : i < st.files.length := by
        rcases List.getElem?_eq_some.1 hfi with ⟨hl, _⟩
        exact hl
      have hz : (st.files.map FileEntry.compressed_size)[i]? = some 0 := by
        rw [List.getElem?_map, hfi]
        rfl
      have hsum : ((st.files.set i ⟨rel, data.length, cdata.length, st.offset⟩).map
          FileEntry.compressed_size).sum = st.offset + cdata.length := by
        rw [List.map_set, sum_set_zero _ _ i hz, hc.sum]
      have hlt64 : st.offset + cdata.length < 2 ^ 64 := by
        have := hinv.sizes
        simp only at this
        rw [← hsum, this]
        exact hT
      have hoff : (st.offset + cdata.length) % 2 ^ 64 = st.offset + cdata.length :=
        Nat.mod_eq_of_lt hlt64
      refine ⟨?_, ?_, ?_, ?_⟩
      · simp only
        rw [hsum, hoff]
      · intro f hf
        simp only at hf ⊢
        rw [hoff]
        rcases List.mem_or_eq_of_mem_set hf with hm | he
        · have := hc.bound f hm
          omega
        · subst he
          exact Nat.le_refl _
      · intro p hp
        simp only at hp ⊢
        rw [hoff] at hp
        by_cases hpo : p < st.offset
        · obtain ⟨j, ⟨f, hj1, hj2, hj3⟩, huniq⟩ := hc.cover p hpo
          have hji : i ≠ j := by
            intro e
            subst e
            rw [hfi] at hj1
            simp only [Option.some.injEq] at hj1
            subst hj1
            simp [FileEntry.empty] at hj3
          refine ⟨j, ⟨f, ?_, hj2, hj3⟩, ?_⟩
          · rw [List.getElem?_set_ne hji]; exact hj1
          · rintro k ⟨g, hk1, hk2, hk3⟩
            by_cases hik : i = k
            · subst hik
              rw [List.getElem?_set_self hil] at hk1
              simp only [Option.some.injEq] at hk1
              subst hk1
              simp only at hk2
              omega
            · rw [List.getElem?_set_ne hik] at hk1
              exact huniq k ⟨g, hk1, hk2, hk3⟩
        · refine ⟨i, ⟨_, List.getElem?_set_self hil, ?_, ?_⟩, ?_⟩
          · simp only; omega
          · simp only; omega
          · rintro k ⟨g, hk1, hk2, hk3⟩
            by_contra hki
            rw [List.getElem?_set_ne (Ne.symm hki)] at hk1
            have hmem : g ∈ st.files := List.mem_iff_getElem?.2 ⟨k, hk1⟩
            have := hc.bound g hmem
            omega
      · obtain ⟨L, hp, ht⟩ := hc.chain
        refine ⟨L.erase FileEntry.empty ++ [⟨rel, data.length, cdata.length, st.offset⟩],
          ?_, ?_⟩
        · simp only
          exact List.perm_append_singleton _ _ |>.trans
            (((hp.erase FileEntry.empty).cons _).trans
              (perm_set_erase FileEntry.empty _ st.files i hfi).symm)
        · simp only
          rw [hoff]
          exact tiles_append _ _ _ 0 st.offset (tiles_erase_empty L st.offset 0 ht) ⟨rfl, rfl⟩

theorem tiles_replicate_empty :
    ∀ n, tiles 0 (List.replicate n FileEntry.empty) 0 := by
  intro n
  induction n with
  | zero => rfl
  | succ n ih => exact ⟨rfl, ih⟩

theorem pack_init_covered (n tc : Nat) : Covered (pack_init n tc) := by
  refine ⟨?_, ?_, ?_, ⟨List.replicate n FileEntry.empty, List.Perm.refl _,
    tiles_replicate_empty n⟩⟩
  · simp [pack_init, FileEntry.empty]
  · intro f hf
    simp only [pack_init] at hf
    rw [List.eq_of_mem_replicate hf]
    simp [pack_init, FileEntry.empty]
  · intro p hp
    simp [pack_init] at hp

theorem run_threads_covered (P : Platform) (fp : List SourceFile) (tc : Nat)
    (hov : fp.length + tc - 1 < 2 ^ 64) :
    ∀ schedule : List Nat, (run_threads P fp tc schedule).total < 2 ^ 64 →
      Covered (run_threads P fp tc schedule) := by
  intro schedule
  induction schedule using List.reverseRecOn with
  | nil => intro _; exact pack_init_covered _ _
  | append_singleton l t ih =>
    intro hT
    have hstep : run_threads P fp tc (l ++ [t])
        = thread_step P fp tc (run_threads P fp tc l) t := by
      unfold run_threads
      rw [List.foldl_concat]
    rw [hstep] at hT ⊢
    have hinv := run_threads_inv P fp tc l hov
    have hmono := thread_step_total P fp tc _ t hinv
    exact thread_step_covered P fp tc _ t hov hinv (ih (by omega)) hT

/-- C4: when all worker threads have finished, under any schedule, and the data section is
shorter than `2 ^ 64` bytes, the container written is the directory followed by `T` bytes
of blocks, where `T` is the sum of the compressed sizes; every interval
`[offset, offset + compressed_size)` ends at or before `T`; every position below `T` lies
in the interval of exactly one entry (no gap, no overlap); two intervals of distinct slots
never share a position; and the entries, put in an order sorted by offset, have intervals
that start at 0, each begin where the one before ends, and end at `T`. -/
theorem offset_coverage (P : Platform) (file_paths : List SourceFile) (schedule : List Nat)
    (st : PackState) (hst : run_threads P file_paths (thread_count P) schedule = st)
    (hov : file_paths.length + thread_count P - 1 < 2 ^ 64)
    (hj : joined file_paths.length (thread_count P) st = true)
    (hT : st.compressed_data.flatten.length < 2 ^ 64) :
    pack_folder P file_paths schedule true []
      = some (true, some (serialize st.files st.compressed_data)) ∧
    (st.files.map FileEntry.compressed_size).sum = st.compressed_data.flatten.length ∧
    (serialize st.files st.compressed_data).length
      = (write_directory st.files).length + (st.files.map FileEntry.compressed_size).sum ∧
    (∀ f ∈ st.files, f.offset + f.compressed_size
      ≤ (st.files.map FileEntry.compressed_size).sum) ∧
    (∀ p, p < (st.files.map FileEntry.compressed_size).sum →
      ∃! i : Nat, ∃ f : FileEntry,
        st.files[i]? = some f ∧ f.offset ≤ p ∧ p < f.offset + f.compressed_size) ∧
    (∀ (i j : Nat) (f g : FileEntry), i ≠ j → st.files[i]? = some f → st.files[j]? = some g →
      ∀ p, ¬ (f.offset ≤ p ∧ p < f.offset + f.compressed_size ∧
        g.offset ≤ p ∧ p < g.offset + g.compressed_size)) ∧
    (∃ L : List FileEntry, L.Perm st.files ∧
      L.Pairwise (fun f g => f.offset ≤ g.offset) ∧
      tiles 0 L (st.files.map FileEntry.compressed_size).sum) := by
  have hinv : PackInv file_paths.length (thread_count P) st := by
    rw [← hst]; exact run_threads_inv P file_paths _ schedule hov
  have htot : st.total < 2 ^ 64 := by
    unfold PackState.total
    rw [← List.length_flatten]
    exact hT
  have hcov : Covered st := by
    rw [← hst] at htot ⊢
    exact run_threads_covered P file_paths _ hov schedule htot
  have hsum : (st.files.map FileEntry.compressed_size).sum = st.offset := hcov.sum
  refine ⟨?_, ?_, ?_, ?_, ?_, ?_, ?_⟩
  · unfold pack_folder
    simp only [hst, hj, ne_eq, not_true_eq_false, if_false, Bool.true_eq_false]
  · rw [hinv.sizes, List.length_flatten]
  · rw [serialize_eq, List.length_append, hinv.sizes, List.length_flatten]
  · rw [hsum]; exact hcov.bound
  · rw [hsum]; exact hcov.cover
  · rintro i j f g hij hi hj2 p ⟨h1, h2, h3, h4⟩
    have hb := hcov.bound g (List.mem_iff_getElem?.2 ⟨j, hj2⟩)
    obtain ⟨k, _, huniq⟩ := hcov.cover p (by omega)
    have e1 := huniq i ⟨f, hi, h1, h2⟩
    have e2 := huniq j ⟨g, hj2, h3, h4⟩
    exact hij (e1.trans e2.symm)
  · obtain ⟨L, hp, ht⟩ := hcov.chain
    rw [hsum]
    exact ⟨L, hp, (tiles_sorted L st.offset 0 ht).2, ht⟩

/-- C4 on two files packed by two threads, the thread of file 1 taking the counter first. -/
theorem offset_coverage_witness :
    joined two_files.length (thread_count (demo 2))
      (run_threads (demo 2) two_files (thread_count (demo 2)) [1, 0]) = true ∧
    pack_folder (demo 2) two_files [1, 0] true []
      = some (true, some (serialize
          (run_threads (demo 2) two_files (thread_count (demo 2)) [1, 0]).files
          (run_threads (demo 2) two_files (thread_count (demo 2)) [1, 0]).compressed_data)) ∧
    (∀ p, p < ((run_threads (demo 2) two_files (thread_count (demo 2)) [1, 0]).files.map
        FileEntry.compressed_size).sum →
      ∃! i : Nat, ∃ f : FileEntry,
        (run_threads (demo 2) two_files (thread_count (demo 2)) [1, 0]).files[i]? = some f ∧
          f.offset ≤ p ∧ p < f.offset + f.compressed_size) :=
  ⟨by decide,
   (offset_coverage (demo 2) two_files [1, 0] _ rfl (by decide) (by decide) (by decide)).1,
   (offset_coverage (demo 2) two_files [1, 0] _ rfl (by decide) (by decide)
      (by decide)).2.2.2.2.1⟩

/-! ### A schedule under which every thread finishes -/

theorem thread_step_next_other (P : Platform) (fp : List SourceFile) (tc : Nat)
    (st : PackState) (t u : Nat) (h : t ≠ u) :
    (thread_step P fp tc st t).next[u]? = st.next[u]? := by
  rcases thread_step_cases P fp tc st t with h0 | ⟨i, _, _, hs⟩
  · rw [h0]
  · rw [hs]
    exact List.getElem?_set_ne h

theorem thread_step_next_self (P : Platform) (fp : List SourceFile) (tc : Nat)
    (st : PackState) (t i : Nat) (hi : st.next[t]? = some i)
    (hlt : i < range_end fp.length tc t) :
    (thread_step P fp tc st t).next[t]? = some (i + 1) := by
  have htl : t < st.next.length := by
    rcases List.getElem?_eq_some.1 hi with ⟨hl, _⟩
    exact hl
  unfold thread_step
  rw [hi]
  simp only [if_pos hlt]
  exact List.getElem?_set_self htl

theorem run_block (P : Platform) (fp : List SourceFile) (tc t : Nat) :
    ∀ (m : Nat) (st : PackState) (i : Nat), st.next[t]? = some i →
      i + m ≤ range_end fp.length tc t →
      ((List.replicate m t).foldl (thread_step P fp tc) st).next[t]? = some (i + m) ∧
      ∀ u, u ≠ t →
        ((List.replicate m t).foldl (thread_step P fp tc) st).next[u]? = st.next[u]? := by
  intro m
  induction m with
  | zero => intro st i hi _; exact ⟨hi, fun _ _ => rfl⟩
  | succ m ih =>
    intro st i hi hle
    rw [List.replicate_succ, List.foldl_cons]
    have h1 := thread_step_next_self P fp tc st t i hi (by omega)
    obtain ⟨a, b⟩ := ih (thread_step P fp tc st t) (i + 1) h1 (by omega)
    constructor
    · rw [a]; congr 1; omega
    · intro u hu
      rw [b u hu]
      exact thread_step_next_other P fp tc st t u (Ne.symm hu)

theorem run_sequential_upto (P : Platform) (fp : List SourceFile) (tc : Nat) :
    ∀ k, k ≤ tc →
      (∀ t, t < k → ∃ i, (((List.range k).flatMap (fun t => List.replicate
          (range_end fp.length tc t - range_begin fp.length tc t) t)).foldl
          (thread_step P fp tc) (pack_init fp.length tc)).next[t]? = some i ∧
          range_end fp.length tc t ≤ i) ∧
      (∀ t, k ≤ t → (((List.range k).flatMap (fun t => List.replicate
          (range_end fp.length tc t - range_begin fp.length tc t) t)).foldl
          (thread_step P fp tc) (pack_init fp.length tc)).next[t]?
          = (pack_init fp.length tc).next[t]?) := by
  intro k
  induction k with
  | zero => intro _; exact ⟨fun t ht => absurd ht (Nat.not_lt_zero _), fun _ _ => rfl⟩
  | succ k ih =>
    intro hk
    obtain ⟨h1, h2⟩ := ih (by omega)
    rw [List.range_succ, List.flatMap_append, List.foldl_append]
    simp only [List.flatMap_cons, List.flatMap_nil, List.append_nil]
    have hk0 : (pack_init fp.length tc).next[k]? = some (range_begin fp.length tc k) := by
      simp only [pack_init, List.getElem?_map]
      rw [List.getElem?_range (by omega)]
      rfl
    have hcur := (h2 k (Nat.le_refl _)).trans hk0
    rcases Nat.lt_or_ge (range_end fp.length tc k) (range_begin fp.length tc k) with hlt | hge
    · have hz : range_end fp.length tc k - range_begin fp.length tc k = 0 := by omega
      rw [hz]
      simp only [List.replicate_zero, List.foldl_nil]
      constructor
      · intro t ht
        rcases Nat.lt_or_ge t k with h | h
        · exact h1 t h
        · have : t = k := by omega
          subst this
          exact ⟨_, hcur, by omega⟩
      · intro t ht
        exact h2 t (by omega)
    · obtain ⟨a, b⟩ := run_block P fp tc k
        (range_end fp.length tc k - range_begin fp.length tc k) _ _ hcur (by omega)
      constructor
      · intro t ht
        rcases Nat.lt_or_ge t k with h | h
        · rw [b t (by omega)]
          exact h1 t h
        · have : t = k := by omega
          subst this
          exact ⟨_, a, by omega⟩
      · intro t ht
        rw [b t (by omega)]
        exact h2 t (by omega)

/-- Under the sequential schedule every thread finishes: `pack_folder` reaches its `join`s. -/
theorem sequential_schedule_joined (P : Platform) (fp : List SourceFile) (tc : Nat) :
    joined fp.length tc (run_threads P fp tc (sequential_schedule fp.length tc)) = true := by
  unfold joined
  rw [List.all_eq_true]
  intro t ht
  rw [List.mem_range] at ht
  obtain ⟨i, hi, hle⟩ := (run_sequential_upto P fp tc tc (Nat.le_refl _)).1 t ht
  unfold run_threads sequential_schedule
  rw [List.getD_eq_getElem?_getD, hi]
  simpa using hle

/-- Totality of `pack_folder`: some schedule makes it return. -/
theorem pack_folder_returns (P : Platform) (fp : List SourceFile) (archive_ok : Bool)
    (password : Bytes) :
    ∃ r, pack_folder P fp (sequential_schedule fp.length (thread_count P)) archive_ok password
      = some r := by
  unfold pack_folder
  simp only [sequential_schedule_joined, Bool.true_eq_false, if_false]
  split
  · split
    · exact ⟨_, rfl⟩
    · split <;> exact ⟨_, rfl⟩
  · split <;> exact ⟨_, rfl⟩

/-! ### What does not depend on the schedule -/

theorem pack_worker_slot (P : Platform) (fp : List SourceFile) (st : PackState) (i : Nat) :
    (pack_worker P fp st i = st ∧ expected_slot P fp i = none) ∨
    ∃ (rel data cdata : Bytes), expected_slot P fp i = some (rel, data.length, cdata) ∧
      pack_worker P fp st i =
        { st with
          files := st.files.set i ⟨rel, data.length, cdata.length, st.offset⟩
          compressed_data := st.compressed_data.set i cdata
          offset := (st.offset + cdata.length) % 2 ^ 64 } := by
  unfold pack_worker expected_slot
  rcases h : fp[i]? with _ | ⟨rel, _ | data⟩
  · exact Or.inl ⟨rfl, rfl⟩
  · exact Or.inl ⟨rfl, rfl⟩
  · rcases hc : P.ZSTD_compress data with _ | cdata
    · exact Or.inl (by simp [hc])
    · refine Or.inr ⟨rel, data, cdata, ?_, ?_⟩ <;> simp [hc]

theorem thread_step_visited (P : Platform) (fp : List SourceFile) (tc : Nat) (st : PackState)
    (t : Nat) (hov : fp.length + tc - 1 < 2 ^ 64) (h : PackInv fp.length tc st)
    (hv : Visited P fp tc st) : Visited P fp tc (thread_step P fp tc st t) := by
  rcases thread_step_cases P fp tc st t with h0 | ⟨i, hi, hlt, hs⟩
  · rw [h0]; exact hv
  · rw [hs]
    have htl : t < st.next.length := by
      rcases List.getElem?_eq_some.1 hi with ⟨hl, _⟩
      exact hl
    have htc : t < tc := by rw [← h.next_len]; exact htl
    obtain ⟨hfi, hdi⟩ := h.pending t i i hi (Nat.le_refl _) hlt
    have hil : i < st.files.length := by
      rcases List.getElem?_eq_some.1 hfi with ⟨hl, _⟩
      exact hl
    have hil2 : i < st.compressed_data.length := by
      rcases List.getElem?_eq_some.1 hdi with ⟨hl, _⟩
      exact hl
    have hother : ∀ u k j, t ≠ u → st.next[u]? = some k → range_begin fp.length tc u ≤ j →
        j < range_end fp.length tc u → i ≠ j := by
      intro u k j htu hk hj1 hj2
      have hul : u < tc := by
        rw [← h.next_len]
        rcases List.getElem?_eq_some.1 hk with ⟨hl, _⟩
        exact hl
      exact ranges_disjoint fp.length tc t u i j hov htc hul htu (h.next_ge t i hi) hlt hj1 hj2
    intro u k j hk hj1 hj2 hj3
    simp only at hk
    rw [List.getElem?_set] at hk
    rcases pack_worker_slot P fp st i with ⟨hw, hex⟩ | ⟨rel, data, cdata, hex, hw⟩
    · rw [hw]
      simp only
      by_cases htu : t = u
      · subst htu
        rw [if_pos rfl, if_pos htl] at hk
        simp only [Option.some.injEq] at hk
        by_cases hji : j = i
        · subst hji
          refine ⟨_, _, hfi, hdi, ?_⟩
          unfold slot_final
          rw [hex]
          exact ⟨rfl, rfl⟩
        · exact hv t i j hi hj1 (by omega) hj3
      · rw [if_neg htu] at hk
        exact hv u k j hk hj1 hj2 hj3
    · rw [hw]
      simp only
      by_cases htu : t = u
      · subst htu
        rw [if_pos rfl, if_pos htl] at hk
        simp only [Option.some.injEq] at hk
        by_cases hji : j = i
        · subst hji
          refine ⟨_, _, List.getElem?_set_self hil, List.getElem?_set_self hil2, ?_⟩
          unfold slot_final
          rw [hex]
          exact ⟨rfl, rfl, rfl, rfl⟩
        · rw [List.getElem?_set_ne (Ne.symm hji), List.getElem?_set_ne (Ne.symm hji)]
          exact hv t i j hi hj1 (by omega) hj3
      · rw [if_neg htu] at hk
        have hne := hother u k j htu hk hj1 hj3
        rw [List.getElem?_set_ne hne, List.getElem?_set_ne hne]
        exact hv u k j hk hj1 hj2 hj3

theorem run_threads_visited (P : Platform) (fp : List SourceFile) (tc : Nat)
    (hov : fp.length + tc - 1 < 2 ^ 64) (schedule : List Nat) :
    Visited P fp tc (run_threads P fp tc schedule) := by
  induction schedule using List.reverseRecOn with
  | nil =>
    intro t i j hi hj1 hj2 _
    exfalso
    have hk0 : (pack_init fp.length tc).next[t]? = some i := hi
    simp only [pack_init, List.getElem?_map] at hk0
    rcases ht : (List.range tc)[t]? with _ | v
    · rw [ht] at hk0; simp at hk0
    · rw [ht] at hk0
      have hv : v = t := by
        rcases List.getElem?_eq_some.1 ht with ⟨hl, hv⟩
        rw [List.getElem_range] at hv
        exact hv.symm
      subst hv
      simp only [Option.map_some', Option.some.injEq] at hk0
      omega
  | append_singleton l t ih =>
    have hstep : run_threads P fp tc (l ++ [t])
        = thread_step P fp tc (run_threads P fp tc l) t := by
      unfold run_threads
      rw [List.foldl_concat]
    rw [hstep]
    exact thread_step_visited P fp tc _ t hov (run_threads_inv P fp tc l hov) ih


theorem index_owner (n tc i : Nat) (htc : 1 ≤ tc) (hov : n + tc - 1 < 2 ^ 64) (hi : i < n) :
    ∃ t, t < tc ∧ range_begin n tc t ≤ i ∧ i < range_end n tc t := by
  have hle := le_mul_batch n tc htc hov
  have hb : 0 < batch n tc := by
    rcases Nat.eq_zero_or_pos (batch n tc) with h | h
    · rw [h] at hle; omega
    · exact h
  have hlt : i / batch n tc < tc := by
    apply (Nat.div_lt_iff_lt_mul hb).2
    have hc : batch n tc * tc = tc * batch n tc := Nat.mul_comm _ _
    omega
  refine ⟨i / batch n tc, hlt, ?_, ?_⟩
  · rw [range_begin_eq n tc _ hov (Nat.le_of_lt hlt)]
    exact Nat.div_mul_le_self i _
  · rw [range_end_eq n tc _ hov hlt]
    have := Nat.lt_mul_div_succ i hb
    have h2 : (i / batch n tc + 1) * batch n tc = batch n tc * (i / batch n tc + 1) :=
      Nat.mul_comm _ _
    omega

theorem joined_slots (P : Platform) (fp : List SourceFile) (tc : Nat) (schedule : List Nat)
    (htc : 1 ≤ tc) (hov : fp.length + tc - 1 < 2 ^ 64)
    (hj : joined fp.length tc (run_threads P fp tc schedule) = true) :
    ∀ j, j < fp.length → ∃ f b, (run_threads P fp tc schedule).files[j]? = some f ∧
      (run_threads P fp tc schedule).compressed_data[j]? = some b ∧ slot_final P fp j f b := by
  intro j hjn
  obtain ⟨t, ht, h1, h2⟩ := index_owner fp.length tc j htc hov hjn
  have hinv := run_threads_inv P fp tc schedule hov
  have hlen : t < (run_threads P fp tc schedule).next.length := by rw [hinv.next_len]; exact ht
  unfold joined at hj
  rw [List.all_eq_true] at hj
  have hjt := hj t (List.mem_range.2 ht)
  rw [List.getD_eq_getElem?_getD, List.getElem?_eq_getElem hlen] at hjt
  simp only [Option.getD_some, decide_eq_true_eq] at hjt
  exact run_threads_visited P fp tc hov schedule t _ j (List.getElem?_eq_getElem hlen) h1
    (by omega) h2

theorem slot_final_unique (P : Platform) (fp : List SourceFile) (j : Nat) (f g : FileEntry)
    (b c : Bytes) (h1 : slot_final P fp j f b) (h2 : slot_final P fp j g c) :
    f.relative_path = g.relative_path ∧ f.original_size = g.original_size ∧
      f.compressed_size = g.compressed_size ∧ b = c := by
  unfold slot_final at h1 h2
  rcases he : expected_slot P fp j with _ | ⟨rel, size, cdata⟩
  · rw [he] at h1 h2
    simp only at h1 h2
    rw [h1.1, h1.2, h2.1, h2.2]
    exact ⟨rfl, rfl, rfl, rfl⟩
  · rw [he] at h1 h2
    simp only at h1 h2
    obtain ⟨a1, a2, a3, a4⟩ := h1
    obtain ⟨b1, b2, b3, b4⟩ := h2
    exact ⟨a1.trans b1.symm, a2.trans b2.symm, a3.trans b3.symm, a4.trans b4.symm⟩

/-- C5, amended: whatever the numbers of threads (at least one) and the schedules under
which two packs of the same ordered files finish, their entries agree slot by slot in
relative path, original size and compressed size, and their blocks are the same. The
offsets are left out: they follow the order in which the workers take the counter. -/
theorem sizes_schedule_independent (P : Platform) (fp : List SourceFile) (tc1 tc2 : Nat)
    (s1 s2 : List Nat) (h1 : 1 ≤ tc1) (h2 : 1 ≤ tc2) (ho1 : fp.length + tc1 - 1 < 2 ^ 64)
    (ho2 : fp.length + tc2 - 1 < 2 ^ 64)
    (hj1 : joined fp.length tc1 (run_threads P fp tc1 s1) = true)
    (hj2 : joined fp.length tc2 (run_threads P fp tc2 s2) = true) :
    (run_threads P fp tc1 s1).files.map
        (fun f => (f.relative_path, f.original_size, f.compressed_size))
      = (run_threads P fp tc2 s2).files.map
        (fun f => (f.relative_path, f.original_size, f.compressed_size)) ∧
    (run_threads P fp tc1 s1).compressed_data = (run_threads P fp tc2 s2).compressed_data := by
  have i1 := run_threads_inv P fp tc1 s1 ho1
  have i2 := run_threads_inv P fp tc2 s2 ho2
  constructor
  · apply List.ext_getElem?
    intro j
    rw [List.getElem?_map, List.getElem?_map]
    rcases Nat.lt_or_ge j fp.length with hj | hj
    · obtain ⟨f, b, a1, a2, a3⟩ := joined_slots P fp tc1 s1 h1 ho1 hj1 j hj
      obtain ⟨g, c, b1, b2, b3⟩ := joined_slots P fp tc2 s2 h2 ho2 hj2 j hj
      obtain ⟨e1, e2, e3, _⟩ := slot_final_unique P fp j f g b c a3 b3
      rw [a1, b1]
      simp only [Option.map_some', e1, e2, e3]
    · rw [List.getElem?_eq_none (by rw [i1.files_len]; exact hj),
        List.getElem?_eq_none (by rw [i2.files_len]; exact hj)]
  · apply List.ext_getElem?
    intro j
    rcases Nat.lt_or_ge j fp.length with hj | hj
    · obtain ⟨f, b, a1, a2, a3⟩ := joined_slots P fp tc1 s1 h1 ho1 hj1 j hj
      obtain ⟨g, c, b1, b2, b3⟩ := joined_slots P fp tc2 s2 h2 ho2 hj2 j hj
      obtain ⟨_, _, _, e4⟩ := slot_final_unique P fp j f g b c a3 b3
      rw [a2, b2, e4]
    · rw [List.getElem?_eq_none (by rw [i1.data_len]; exact hj),
        List.getElem?_eq_none (by rw [i2.data_len]; exact hj)]

/-- C5, amended, on two files: one thread against two threads with thread 1 first. -/
theorem sizes_schedule_independent_witness :
    (run_threads (demo 1) two_files 1 [0, 0]).files.map
        (fun f => (f.relative_path, f.original_size, f.compressed_size))
      = (run_threads (demo 1) two_files 2 [1, 0]).files.map
        (fun f => (f.relative_path, f.original_size, f.compressed_size)) ∧
    (run_threads (demo 1) two_files 1 [0, 0]).compressed_data
      = (run_threads (demo 1) two_files 2 [1, 0]).compressed_data :=
  sizes_schedule_independent (demo 1) two_files 1 2 [0, 0] [1, 0] (by decide) (by decide)
    (by decide) (by decide) (by decide) (by decide)

/-! ### Offsets against placement -/

/-- C3, failing input: two files on two hardware threads, the thread of file 1 taking the
counter before the thread of file 0. All threads finish; entry 0 records offset 2 and entry
1 offset 0, while the blocks are written in index order, block 0 at position 0 of the data
section, which starts at byte 78 of the container, and block 1 at position 2. -/
theorem recorded_offset_not_placement :
    thread_count (demo 2) = 2 ∧
    joined 2 2 (run_threads (demo 2) two_files 2 [1, 0]) = true ∧
    (run_threads (demo 2) two_files 2 [1, 0]).files.map FileEntry.offset = [2, 0] ∧
    (List.range 2).map (fun i =>
      ((run_threads (demo 2) two_files 2 [1, 0]).compressed_data.take i).flatten.length)
      = [0, 2] ∧
    (pack_folder (demo 2) two_files [1, 0] true []).map
      (fun r => r.2.map (fun archive => archive.drop 78)) = some (some [40, 120, 40, 121]) := by
  refine ⟨?_, ?_, ?_, ?_, ?_⟩ <;> decide

/-- C5, counterexample: the same two files packed by one thread, and by two threads with
the thread of file 1 taking the counter first (and also by two threads in the other
order): the packs finish, and the directories differ in their offsets. -/
theorem directory_depends_on_schedule :
    joined 2 (thread_count (demo 1))
      (run_threads (demo 1) two_files (thread_count (demo 1)) [0, 0]) = true ∧
    joined 2 (thread_count (demo 2))
      (run_threads (demo 2) two_files (thread_count (demo 2)) [1, 0]) = true ∧
    (run_threads (demo 1) two_files (thread_count (demo 1)) [0, 0]).files
      = [⟨[97], 1, 2, 0⟩, ⟨[98], 1, 2, 2⟩] ∧
    (run_threads (demo 2) two_files (thread_count (demo 2)) [1, 0]).files
      = [⟨[97], 1, 2, 2⟩, ⟨[98], 1, 2, 0⟩] ∧
    (run_threads (demo 2) two_files (thread_count (demo 2)) [0, 1]).files
      = [⟨[97], 1, 2, 0⟩, ⟨[98], 1, 2, 2⟩] := by
  refine ⟨?_, ?_, ?_, ?_, ?_⟩ <;> decide

/-! ### Pack followed by unpack -/

/-- The stored codec is lossless. -/
theorem stored_lossless (d c : Bytes) (h : stored_compress d = some c) :
    stored_decompress c d.length = some d := by
  unfold stored_compress at h
  simp only [Option.some.injEq] at h
  subst h
  simp [stored_decompress]

/-- C1, failing input: the files `a` = `x` and `b` = `y`, no password, a lossless codec, all
I/O succeeding, two hardware threads with the thread of file 1 taking the counter first.
`pack_folder` returns true and `unpack_archive` on its container returns true, but writes
`y` to `a` and `x` to `b`. -/
theorem round_trip_swaps_contents :
    (∀ d c, stored_compress d = some c → stored_decompress c d.length = some d) ∧
    two_files = [([97], some [120]), ([98], some [121])] ∧
    (pack_folder (demo 2) two_files [1, 0] true []).map Prod.fst = some true ∧
    (pack_folder (demo 2) two_files [1, 0] true []).bind
        (fun r => unpack_archive (demo 2) r.2 [] [0, 0, 0, 0])
      = some (true, [([97], [121]), ([98], [120])]) := by
  refine ⟨stored_lossless, rfl, ?_, ?_⟩ <;> decide

end Archiver
